import Mathlib

/-!
# Verification of the GESTALT phylogenetic likelihood engine

Shallow embedding of the hazard model, transition-matrix assembly and
Felsenstein pruning of `gestalt/clt_likelihood_model.py` and
`gestalt/clt_likelihood_estimator.py`, together with the repair-length
logic of `gestalt/allele_simulator_simult.py`.

Numeric values are embedded as exact rationals.  The tensorflow graph
computes some products as `exp(log a + log b + ...)`; for the positive
inputs the model feeds it, this equals the plain product, and the
embedding uses the product form directly.  Real-valued quantities
(`log`, `exp` of the branch process) appear only in theorem statements,
over casts of the rational definitions.
-/

/-- A target tract event.  Modelled from the spec (§3 data model): the class
lives in `indel_sets.py`, which is not among the source files; the spec gives
its four attributes `min_deact ≤ min_cut ≤ max_cut ≤ max_deact` and derives
the long flags as "cut < deact on that side".  Field names follow the
attribute names `min_deact_target`, `min_target`, `max_target`,
`max_deact_target` used throughout `clt_likelihood_model.py`. -/
structure TargetTract where
  minDeact : ℕ
  minTarget : ℕ
  maxTarget : ℕ
  maxDeact : ℕ
deriving DecidableEq, Repr

/-- Left-long flag: the deactivated range extends strictly left of the cut
(spec: long flags = (cut < deact on that side)). -/
def TargetTract.isLeftLong (tt : TargetTract) : Bool :=
  tt.minDeact < tt.minTarget

/-- Right-long flag: the deactivated range extends strictly right of the cut. -/
def TargetTract.isRightLong (tt : TargetTract) : Bool :=
  tt.maxTarget < tt.maxDeact

/-- The model parameters of `CLTLikelihoodModel.__init__` that the hazard
model reads: per-target cut rates `target_lams` and the pair
`trim_long_probs` (left, right).  Note the source constructor has **no**
`double_cut_weight` parameter. -/
structure ModelParams where
  targetLams : List ℚ
  trimLongProbLeft : ℚ
  trimLongProbRight : ℚ
deriving DecidableEq, Repr

/-- `self.num_targets = bcode_meta.n_targets`, the length of `target_lams`. -/
def ModelParams.numTargets (p : ModelParams) : ℕ := p.targetLams.length

/-- `tf.gather(self.target_lams, i)`. -/
def ModelParams.lam (p : ModelParams) (i : ℕ) : ℚ := p.targetLams.getD i 0

/-- Hazard of a single `TargetTract` event, from `_create_hazard_nodes`
(and identically `_create_hazard`): the source computes
`exp(log λ[a] + log λ[b] * [a ≠ b] + log left_trim_prob + log right_trim_prob)`
with `left_trim_prob = pL if is_left_long else 1 - pL` and symmetrically on
the right; for positive inputs this is the product below. -/
def hazard (p : ModelParams) (tt : TargetTract) : ℚ :=
  p.lam tt.minTarget *
    (if tt.minTarget = tt.maxTarget then 1 else p.lam tt.maxTarget) *
    (if tt.isLeftLong then p.trimLongProbLeft else 1 - p.trimLongProbLeft) *
    (if tt.isRightLong then p.trimLongProbRight else 1 - p.trimLongProbRight)

/-- One factor of `_create_hazard_list`:
`equal_float(trimmables, 1) * trim_short + equal_float(trimmables, 2)`,
where `trim_short` is `1 - trim_long_prob` when trimming on that side is
requested and `1` otherwise. -/
def maskFactor (m : ℕ) (trimShort : ℚ) : ℚ :=
  (if m = 1 then trimShort else 0) + (if m = 2 then 1 else 0)

/-- `_create_hazard_list`: elementwise
`target_lams * left_factor * right_factor` over the `num_targets`
positions, reading the per-target trimmable masks. -/
def hazardList (p : ModelParams) (trimLeft trimRight : Bool)
    (leftM rightM : List ℕ) : List ℚ :=
  (List.range p.numTargets).map fun i =>
    p.lam i *
      maskFactor (leftM.getD i 0) (if trimLeft then 1 - p.trimLongProbLeft else 1) *
      maskFactor (rightM.getD i 0) (if trimRight then 1 - p.trimLongProbRight else 1)

/-- `tf.cumsum`: inclusive prefix sums. -/
def cumsum (l : List ℚ) : List ℚ :=
  (List.range l.length).map fun k => ((l.take (k + 1)).sum)

/-- The masks of the sections of `_get_hazard_masks` after the first indel:
the gap between two consecutive indels, the zero run of the next indel, and
finally the section after all the indels.  Guards of the form `x < y - 1`
and `x = y - 1` on Python ints are written additively (`x + 1 < y`,
`x + 1 = y`) so that truncated ℕ subtraction cannot change their meaning. -/
def midMasks (N : ℕ) (prev : TargetTract) : List TargetTract → List ℕ × List ℕ
  | [] =>
    if prev.maxDeact + 2 < N then
      ([1] ++ List.replicate (N - prev.maxDeact - 2) 2,
       List.replicate (N - prev.maxDeact - 2) 2 ++ [1])
    else if prev.maxDeact + 2 = N then ([1], [1])
    else ([], [])
  | tt :: rest =>
    let gap : List ℕ × List ℕ :=
      if prev.maxDeact + 2 < tt.minDeact then
        ([1] ++ List.replicate (tt.minDeact - prev.maxDeact - 2) 2,
         List.replicate (tt.minDeact - prev.maxDeact - 2) 2 ++ [1])
      else if prev.maxDeact + 2 = tt.minDeact then ([1], [1])
      else ([], [])
    let zeros := List.replicate (tt.maxDeact - tt.minDeact + 1) (0 : ℕ)
    let m := midMasks N tt rest
    (gap.1 ++ zeros ++ m.1, gap.2 ++ zeros ++ m.2)

/-- `_get_hazard_masks`: per-target trimmable masks in {0,1,2} (left list,
right list).  0 = no trim possible there, 1 = short only, 2 = short or
long. -/
def hazardMasks (N : ℕ) : List TargetTract → List ℕ × List ℕ
  | [] => ([1] ++ List.replicate (N - 1) 2, List.replicate (N - 1) 2 ++ [1])
  | t0 :: rest =>
    let pre : List ℕ × List ℕ :=
      if 1 < t0.minDeact then
        ([1] ++ List.replicate (t0.minDeact - 1) 2,
         List.replicate (t0.minDeact - 1) 2 ++ [1])
      else if t0.minDeact = 1 then ([1], [1])
      else ([], [])
    let zeros := List.replicate (t0.maxDeact - t0.minDeact + 1) (0 : ℕ)
    let m := midMasks N t0 rest
    (pre.1 ++ zeros ++ m.1, pre.2 ++ zeros ++ m.2)

/-- `_create_hazard_away_nodes` for a single target tract tuple: focal
hazards plus left-cumulative × right inter-target hazards. -/
def hazardAway (p : ModelParams) (tts : List TargetTract) : ℚ :=
  let masks := hazardMasks p.numTargets tts
  let focal := hazardList p true true masks.1 masks.2
  let lefts := (hazardList p true false masks.1 masks.2).take (p.numTargets - 1)
  let rights := (hazardList p false true masks.1 masks.2).drop 1
  focal.sum + (List.zipWith (· * ·) (cumsum lefts) rights).sum

/-- Target `i` is deactivated by the tuple: some tract's deactivated range
`[min_deact, max_deact]` covers it. -/
def deactB (tts : List TargetTract) (i : ℕ) : Bool :=
  tts.any fun tt => tt.minDeact ≤ i ∧ i ≤ tt.maxDeact

/-- The still-active targets of a tuple, in increasing order (the
`active_any_targs` argument fed to `get_possible_target_tracts`). -/
def activeTargs (N : ℕ) (tts : List TargetTract) : List ℕ :=
  (List.range N).filter fun i => !(deactB tts i)

/-- `all_starts[j]` of `get_possible_target_tracts`: pairs
(min deact target, min cut target) available at the `j`-th active target;
the long-left entry exists when the previous active target is the adjacent
integer. -/
def allStarts (A : List ℕ) (j : ℕ) : List (ℕ × ℕ) :=
  (if 0 < j ∧ A.getD (j - 1) 0 + 1 = A.getD j 0 then
    [(A.getD (j - 1) 0, A.getD j 0)] else []) ++
  [(A.getD j 0, A.getD j 0)]

/-- `all_ends[k]` of `get_possible_target_tracts`: pairs
(max cut target, max deact target) at the `k`-th active target. -/
def allEnds (A : List ℕ) (k : ℕ) : List (ℕ × ℕ) :=
  [(A.getD k 0, A.getD k 0)] ++
  (if k + 1 < A.length ∧ A.getD (k + 1) 0 = A.getD k 0 + 1 then
    [(A.getD k 0, A.getD (k + 1) 0)] else [])

/-- The nested loops of `get_possible_target_tracts`: all combinations of a
start at active index `j` and an end at active index `k ≥ j`. -/
def possibleTTList (A : List ℕ) : List TargetTract :=
  (List.range A.length).flatMap fun j =>
    (List.range' j (A.length - j)).flatMap fun k =>
      (allStarts A j).flatMap fun s =>
        (allEnds A k).map fun e => ⟨s.1, s.2, e.1, e.2⟩

/-- `get_possible_target_tracts` returns a Python set of target tracts. -/
def possibleTargetTracts (A : List ℕ) : Finset TargetTract :=
  (possibleTTList A).toFinset

/-- The spec's hazard formula (§4.3, claim C1), *including* the
`double_cut_weight` factor `w` on inter-target events.  This definition is
stated from the spec's words, for comparison with the source's `hazard`. -/
def hazardSpecFormula (p : ModelParams) (w : ℚ) (tt : TargetTract) : ℚ :=
  p.lam tt.minTarget *
    (if tt.maxTarget ≠ tt.minTarget then p.lam tt.maxTarget else 1) *
    (if tt.isLeftLong then p.trimLongProbLeft else 1 - p.trimLongProbLeft) *
    (if tt.isRightLong then p.trimLongProbRight else 1 - p.trimLongProbRight) *
    (if tt.maxTarget ≠ tt.minTarget then w else 1)

/-- One row of a transition-matrix skeleton.  Modelled from the spec
(§3, TransitionSkeleton): the `TransitionMatrixWrapper` class lives in
`transition_matrix.py`, which is not among the source files.  The numbering
`key_dict : tts → index` is abstracted by storing, for the row of start
state `startTts`, its own index `startIdx` and the pairs
(index of end tts, triggering event) of `matrix_dict[start_tts]`. -/
structure SkeletonRow where
  startIdx : ℕ
  startTts : List TargetTract
  trans : List (ℕ × TargetTract)

/-- The value the assembly loop of `_create_transition_matrix` puts at
column `j` of the row of `r`: `-hazard_away` on the diagonal,
`hazard_away - Σ hazards` in the unlikely column `S`, the event hazard on
each listed end index, and the `sparse_to_dense` default 0 elsewhere. -/
def rowEntry (p : ModelParams) (S : ℕ) (r : SkeletonRow) (j : ℕ) : ℚ :=
  if j = r.startIdx then -(hazardAway p r.startTts)
  else if j = S then
    hazardAway p r.startTts - ((r.trans.map fun e => hazard p e.2).sum)
  else ((r.trans.filter fun e => e.1 = j).map fun e => hazard p e.2).sum

/-- `_create_transition_matrix`: the assembled instantaneous rate matrix of
shape (S+1) × (S+1), as a function of (row, column). -/
def qMatrix (p : ModelParams) (S : ℕ) (rows : List SkeletonRow) (i j : ℕ) : ℚ :=
  match rows.find? (fun r => r.startIdx = i) with
  | some r => rowEntry p S r j
  | none => 0

/-- Barcode metadata fields read by `_create_del_probs`.  Modelled from the
spec (§3, BarcodeMeta): `barcode_metadata.py` is not among the source
files.  The integer entries are embedded directly as the rationals the
source casts them to. -/
structure BarcodeMeta where
  absCutSites : List ℚ
  leftLongTrimMin : List ℚ
  rightLongTrimMin : List ℚ
  leftMaxTrim : List ℚ
  rightMaxTrim : List ℚ

/-- Modelled from the spec: `tf_common.py` is not among the source files;
`ifelse(c, a, b)` blends with the 0/1 float condition, selecting `a` when
`c = 1` and `b` when `c = 0`. -/
def ifelseQ (c a b : ℚ) : ℚ := c * a + (1 - c) * b

/-- Modelled from the spec: `tf_common.equal_float`, the 0/1 indicator of
equality. -/
def equalFloat (a b : ℚ) : ℚ := if a = b then 1 else 0

/-- `tf.cast(tf.less_equal(a, b), tf.float32)`. -/
def leChk (a b : ℚ) : ℚ := if a ≤ b then 1 else 0

/-- The left-trim factor of `_create_del_probs`:
`1/(max_left_trim - min_left_trim + 1) * check_left_max`.  The
`check_left_min` factor is commented out in the source and therefore
absent here too. -/
def leftDelProb (meta : BarcodeMeta) (minT : ℕ) (llF startPos : ℚ) : ℚ :=
  let leftTrimLen := meta.absCutSites.getD minT 0 - startPos
  let lltMin := meta.leftLongTrimMin.getD minT 0
  let minLeftTrim := llF * lltMin
  let maxLeftTrim := ifelseQ llF (meta.leftMaxTrim.getD minT 0) (lltMin - 1)
  1 / (maxLeftTrim - minLeftTrim + 1) * leChk leftTrimLen maxLeftTrim

/-- The right-trim factor of `_create_del_probs`:
`1/(max_right_trim - min_right_trim + 1) * check_right_max * check_right_min`. -/
def rightDelProb (meta : BarcodeMeta) (maxT : ℕ) (rlF delEnd : ℚ) : ℚ :=
  let rightTrimLen := delEnd - meta.absCutSites.getD maxT 0
  let rltMin := meta.rightLongTrimMin.getD maxT 0
  let minRightTrim := rlF * rltMin
  let maxRightTrim := ifelseQ rlF (meta.rightMaxTrim.getD maxT 0) (rltMin - 1)
  1 / (maxRightTrim - minRightTrim + 1) *
    leChk rightTrimLen maxRightTrim * leChk minRightTrim rightTrimLen

/-- `_create_del_probs`: the conditional deletion probability of a
singleton, with the long flags as 0/1 floats, `is_short_indel =
equal_float(is_left_long + is_right_long, 0)`, and the zero-inflated
branch taken through the short arm of the outer `ifelse`. -/
def delProb (meta : BarcodeMeta) (trimZeroProb : ℚ) (minT maxT : ℕ)
    (llF rlF startPos delEnd : ℚ) : ℚ :=
  let delLen := delEnd - startPos
  let lp := leftDelProb meta minT llF startPos
  let rp := rightDelProb meta maxT rlF delEnd
  let isShortIndel := equalFloat (llF + rlF) 0
  let isLenZero := equalFloat delLen 0
  ifelseQ isShortIndel
    (ifelseQ isLenZero
      (trimZeroProb + (1 - trimZeroProb) * lp * rp)
      ((1 - trimZeroProb) * lp * rp))
    (lp * rp)

/-- The random draws consumed by one call of
`AlleleSimulatorSimultaneous._do_repair`. -/
structure RepairDraws where
  doInsertion : Bool
  doDeletionLeft : Bool
  doDeletionRight : Bool
  insertDraw : ℕ
  leftDraw : ℕ
  rightDraw : ℕ
  boostChoice : Fin 3
deriving DecidableEq

/-- The deletion/insertion lengths `_do_repair` commits, as
(insert_len, left_del_len, right_del_len).  Mirrors the source:
`insert_len_raw = boost_len + insertion_distribution.rvs()` is computed
unconditionally before the regime split; in the long/inter-target regime
no boost redirection happens, while in the all-short regime a three-way
multinomial picks which length to boost. -/
def doRepairLens (boostLen : ℕ) (isIntertarg leftLong rightLong : Bool)
    (d : RepairDraws) : ℕ × ℕ × ℕ :=
  let insertLenRaw := boostLen + d.insertDraw
  if leftLong || rightLong || isIntertarg then
    (if d.doInsertion then insertLenRaw else 0,
     if d.doDeletionLeft || leftLong then d.leftDraw else 0,
     if d.doDeletionRight || rightLong then d.rightDraw else 0)
  else
    let insertBoost := d.boostChoice = 0
    let leftShortBoost := d.boostChoice = 1
    let rightShortBoost := d.boostChoice = 2
    (if insertBoost ∨ d.doInsertion then insertLenRaw else 0,
     if d.doDeletionLeft ∨ leftShortBoost then d.leftDraw else 0,
     if d.doDeletionRight ∨ rightShortBoost then d.rightDraw else 0)

/-- `np.max` of a nonempty vector stored as a list. -/
def listMax : List ℚ → ℚ
  | [] => 0
  | x :: xs => xs.foldl max x

/-- The per-node rescaling step of `CLTLassoEstimator.get_likelihood`
(lines 159–163): `scaler = L.max(); if scaler == 0: raise
ValueError("Why is everything zero?"); L /= scaler`, also returning the
scaler whose log is added to the accumulator. -/
def felsScalerStep (L : List ℚ) : Except String (List ℚ × ℚ) :=
  let scaler := listMax L
  if scaler = 0 then Except.error "Why is everything zero?"
  else Except.ok (L.map (· / scaler), scaler)

/-- Per-child data of the Felsenstein recursion: the child's number of
likely states, the matrices `P = exp(Q·t)` and the trim-probability matrix
`T` (arbitrary inputs here: the equivalence claim quantifies over them),
the (parent index, child index) pairs realising `_reorder_likelihoods`,
and the child index of the unedited tuple used at the root. -/
structure EdgeData where
  numStates : ℕ
  P : ℕ → ℕ → ℚ
  T : ℕ → ℕ → ℚ
  reorderPairs : List (ℕ × ℕ)
  emptyIdx : ℕ

mutual
/-- A subtree of the topology below the root, with each internal node
carrying its number of likely states and each leaf the index of its
observed target tract tuple. -/
inductive FelsTree where
  | leaf (numStates : ℕ) (obsIdx : ℕ)
  | node (numStates : ℕ) (children : FelsForest)
/-- The list of children of an internal node, each with its edge data. -/
inductive FelsForest where
  | nil
  | cons (e : EdgeData) (t : FelsTree) (rest : FelsForest)
end

/-- `ch_ordered_down_probs = (P ⊙ T) · L[child]` of `get_likelihood`. -/
def downProb (e : EdgeData) (v : ℕ → ℚ) (j : ℕ) : ℚ :=
  ∑ k ∈ Finset.range (e.numStates + 1), e.P j k * e.T j k * v k

/-- `_reorder_likelihoods`: entry `node_tts_id` of the result is entry
`ch_tts_id` of the input for every tts of the parent's state sum, and 0
elsewhere. -/
def reorderVec (e : EdgeData) (v : ℕ → ℚ) (i : ℕ) : ℚ :=
  match e.reorderPairs.find? (fun pr => pr.1 = i) with
  | some pr => v pr.2
  | none => 0

mutual
/-- The Felsenstein recursion of `get_likelihood` run with **no** per-node
rescaling: the raw partial-likelihood vector of a subtree. -/
def felsRaw : FelsTree → ℕ → ℚ
  | .leaf _ obs => fun j => if j = obs then 1 else 0
  | .node _ cs => felsRawForest cs
/-- The componentwise product `L[v] = Π_c reorder((P_c ⊙ T_c)·L[c])` over a
forest of children, starting from the constant 1. -/
def felsRawForest : FelsForest → ℕ → ℚ
  | .nil => fun _ => 1
  | .cons e t rest => fun j =>
    reorderVec e (downProb e (felsRaw t)) j * felsRawForest rest j
end

mutual
/-- The Felsenstein recursion of `get_likelihood` as written: after
combining all children of an internal node, the vector is divided by its
maximum entry, which is appended to the list of scalers (the logs of which
the source adds to `log_lik`). -/
def felsResc : FelsTree → (ℕ → ℚ) × List ℚ
  | .leaf _ obs => (fun j => if j = obs then 1 else 0, [])
  | .node S cs =>
    let pr := felsRescForest cs
    let sc := listMax ((List.range (S + 1)).map pr.1)
    (fun j => pr.1 j / sc, pr.2 ++ [sc])
/-- Child combination of the rescaled recursion, collecting the scalers
emitted inside the children. -/
def felsRescForest : FelsForest → (ℕ → ℚ) × List ℚ
  | .nil => (fun _ => 1, [])
  | .cons e t rest =>
    let child := felsResc t
    let rest' := felsRescForest rest
    (fun j => reorderVec e (downProb e child.1) j * rest'.1 j,
     child.2 ++ rest'.2)
end

/-- The root combination of `get_likelihood` on the rescaled children:
`L[root] *= ch_ordered_down_probs[ch_trans_mat.key_dict[()]]` over the
root's children (a scalar, no reordering), with the children's scalers. -/
def felsRootPre : FelsForest → ℚ × List ℚ
  | .nil => (1, [])
  | .cons e t rest =>
    let child := felsResc t
    let rest' := felsRootPre rest
    (downProb e child.1 e.emptyIdx * rest'.1, child.2 ++ rest'.2)

/-- The root value and full scaler list of the rescaled run: the root
"vector" is the single scalar `L[root]`, so its own rescaling step divides
it by itself and appends it to the scalers. -/
def felsLogLikData (cs : FelsForest) : ℚ × List ℚ :=
  let pr := felsRootPre cs
  let sc := listMax [pr.1]
  (pr.1 / sc, pr.2 ++ [sc])

/-- The root scalar of the raw (never rescaled) run. -/
def felsRawRoot : FelsForest → ℚ
  | .nil => 1
  | .cons e t rest => downProb e (felsRaw t) e.emptyIdx * felsRawRoot rest

/-! ## Pointwise characterization of `_get_hazard_masks`

The mask lists are built section by section; the lemmas below show that
for a well-formed tuple they are, position by position, the masks the
docstring of `_get_hazard_masks` describes: 0 on a deactivated target,
1 on an active target whose relevant neighbour is missing or deactivated,
2 otherwise. -/

/-- Well-formedness of a target tract tuple (spec §3, TtsTuple: "targets
strictly non-overlapping left-to-right"): ordered, each tract's
deactivated range is a valid sub-range of the `N` targets. -/
def wfTts (N : ℕ) (tts : List TargetTract) : Prop :=
  (∀ tt ∈ tts, tt.minDeact ≤ tt.maxDeact ∧ tt.maxDeact < N) ∧
  List.Pairwise (fun s t => s.maxDeact < t.minDeact) tts

instance (N : ℕ) (tts : List TargetTract) : Decidable (wfTts N tts) := by
  unfold wfTts; infer_instance

/-- The left mask of target `i`, given the deactivation predicate `d`. -/
def leftSpecM (d : ℕ → Bool) (i : ℕ) : ℕ :=
  if d i then 0 else if i = 0 ∨ d (i - 1) then 1 else 2

/-- The right mask of target `i` among `N` targets. -/
def rightSpecM (d : ℕ → Bool) (N i : ℕ) : ℕ :=
  if d i then 0 else if i = N - 1 ∨ d (i + 1) then 1 else 2

/-- The left-mask section of a maximal run of `g` active targets. -/
def activeRunL : ℕ → List ℕ
  | 0 => []
  | g + 1 => 1 :: List.replicate g 2

/-- The right-mask section of a maximal run of `g` active targets. -/
def activeRunR : ℕ → List ℕ
  | 0 => []
  | g + 1 => List.replicate g 2 ++ [1]

lemma map_leftSpec_interior (d : ℕ → Bool) (g : ℕ) :
    ∀ s, 1 ≤ s → (∀ j, s - 1 ≤ j → j < s + g → d j = false) →
    (List.range' s g).map (leftSpecM d) = List.replicate g 2 := by
  induction g with
  | zero => simp
  | succ g ih =>
    intro s hs hact
    rw [List.range'_succ, List.map_cons, List.replicate_succ]
    have hds : d s = false := hact s (by omega) (by omega)
    have hds1 : d (s - 1) = false := hact (s - 1) (by omega) (by omega)
    have h2 : leftSpecM d s = 2 := by
      simp only [leftSpecM]
      rw [if_neg (by simp [hds]), if_neg (by simp [hds1]; omega)]
    rw [h2, ih (s + 1) (by omega) (fun j h1 h2 => hact j (by omega) (by omega))]

lemma map_leftSpec_run (d : ℕ → Bool) (a g : ℕ)
    (hact : ∀ j, a ≤ j → j < a + g → d j = false)
    (hb : a = 0 ∨ d (a - 1) = true) :
    (List.range' a g).map (leftSpecM d) = activeRunL g := by
  cases g with
  | zero => simp [activeRunL]
  | succ g =>
    rw [List.range'_succ, List.map_cons, activeRunL]
    have hda : d a = false := hact a (by omega) (by omega)
    have h1 : leftSpecM d a = 1 := by
      simp only [leftSpecM]
      rw [if_neg (by simp [hda]), if_pos]
      rcases hb with rfl | h
      · exact Or.inl rfl
      · exact Or.inr h
    rw [h1, map_leftSpec_interior d g (a + 1) (by omega)
      (fun j h1 h2 => hact j (by omega) (by omega))]

lemma map_rightSpec_run (d : ℕ → Bool) (N : ℕ) (g : ℕ) :
    ∀ a, (∀ j, a ≤ j → j < a + g → d j = false) →
    (a + g = N ∨ d (a + g) = true) → a + g ≤ N →
    (List.range' a g).map (rightSpecM d N) = activeRunR g := by
  induction g with
  | zero => simp [activeRunR]
  | succ g ih =>
    intro a hact hb hle
    rw [List.range'_succ, List.map_cons]
    have hda : d a = false := hact a (by omega) (by omega)
    cases g with
    | zero =>
      have h1 : rightSpecM d N a = 1 := by
        simp only [rightSpecM]
        rw [if_neg (by simp [hda]), if_pos]
        rcases hb with h | h
        · exact Or.inl (by omega)
        · exact Or.inr (by simpa using h)
      simp [h1, activeRunR]
    | succ g' =>
      have hda1 : d (a + 1) = false := hact (a + 1) (by omega) (by omega)
      have h2 : rightSpecM d N a = 2 := by
        simp only [rightSpecM]
        rw [if_neg (by simp [hda]), if_neg (by simp [hda1]; omega)]
      have htail := ih (a + 1) (fun j h1 h2 => hact j (by omega) (by omega))
        (by rcases hb with h | h
            · exact Or.inl (by omega)
            · exact Or.inr (by rw [show a + 1 + (g' + 1) = a + (g' + 1 + 1) by omega]; exact h))
        (by omega)
      rw [h2, htail]
      show (2 : ℕ) :: activeRunR (g' + 1) = activeRunR (g' + 1 + 1)
      simp [activeRunR, List.replicate_succ]

lemma map_spec_zeros_left (d : ℕ → Bool) (s n : ℕ)
    (hd : ∀ j, s ≤ j → j < s + n → d j = true) :
    (List.range' s n).map (leftSpecM d) = List.replicate n 0 := by
  rw [List.eq_replicate_iff]
  constructor
  · simp
  · intro b hb
    obtain ⟨j, hj, rfl⟩ := List.mem_map.mp hb
    obtain ⟨h1, h2⟩ := List.mem_range'_1.mp hj
    simp [leftSpecM, hd j h1 h2]

lemma map_spec_zeros_right (d : ℕ → Bool) (N s n : ℕ)
    (hd : ∀ j, s ≤ j → j < s + n → d j = true) :
    (List.range' s n).map (rightSpecM d N) = List.replicate n 0 := by
  rw [List.eq_replicate_iff]
  constructor
  · simp
  · intro b hb
    obtain ⟨j, hj, rfl⟩ := List.mem_map.mp hb
    obtain ⟨h1, h2⟩ := List.mem_range'_1.mp hj
    simp [rightSpecM, hd j h1 h2]

lemma deactB_iff (tts : List TargetTract) (i : ℕ) :
    deactB tts i = true ↔ ∃ tt ∈ tts, tt.minDeact ≤ i ∧ i ≤ tt.maxDeact := by
  simp [deactB]

lemma deactB_cons_of_gt {prev : TargetTract} {l : List TargetTract} {i : ℕ}
    (h : prev.maxDeact < i) : deactB (prev :: l) i = deactB l i := by
  simp only [deactB, List.any_cons]
  have : ¬(prev.minDeact ≤ i ∧ i ≤ prev.maxDeact) := by omega
  simp [this]

lemma deactB_false_of (tts : List TargetTract) (i : ℕ)
    (h : ∀ tt ∈ tts, i < tt.minDeact ∨ tt.maxDeact < i) : deactB tts i = false := by
  simp only [deactB, List.any_eq_false, decide_eq_true_eq]
  intro tt htt
  rcases h tt htt with h' | h' <;> omega

lemma deactB_true_of {tts : List TargetTract} {i : ℕ} (tt : TargetTract)
    (hmem : tt ∈ tts) (h1 : tt.minDeact ≤ i) (h2 : i ≤ tt.maxDeact) :
    deactB tts i = true :=
  (deactB_iff tts i).mpr ⟨tt, hmem, h1, h2⟩

lemma range'_split (s m n : ℕ) :
    List.range' s (m + n) = List.range' s m ++ List.range' (s + m) n := by
  rw [Nat.add_comm m n, ← List.range'_append s m n 1, Nat.one_mul]

lemma midMasks_eq (N : ℕ) (rest : List TargetTract) :
    ∀ prev : TargetTract, prev.minDeact ≤ prev.maxDeact →
    (∀ tt ∈ rest, tt.minDeact ≤ tt.maxDeact ∧ tt.maxDeact < N) →
    List.Pairwise (fun s t => s.maxDeact < t.minDeact) (prev :: rest) →
    midMasks N prev rest =
      ((List.range' (prev.maxDeact + 1) (N - prev.maxDeact - 1)).map
          (leftSpecM (deactB (prev :: rest))),
       (List.range' (prev.maxDeact + 1) (N - prev.maxDeact - 1)).map
          (rightSpecM (deactB (prev :: rest)) N)) := by
  induction rest with
  | nil =>
    intro prev hprev _ _
    have hdno : ∀ j, prev.maxDeact < j → deactB [prev] j = false := fun j hj =>
      deactB_false_of _ _ (by intro tt htt; simp at htt; subst htt; omega)
    have hdpm : deactB [prev] prev.maxDeact = true :=
      deactB_true_of prev (by simp) hprev le_rfl
    simp only [midMasks]
    by_cases h1 : prev.maxDeact + 2 < N
    · rw [if_pos h1]
      rw [map_leftSpec_run (deactB [prev]) (prev.maxDeact + 1) (N - prev.maxDeact - 1)
            (fun j ha _ => hdno j (by omega))
            (Or.inr (by simpa using hdpm)),
          map_rightSpec_run (deactB [prev]) N (N - prev.maxDeact - 1) (prev.maxDeact + 1)
            (fun j ha _ => hdno j (by omega))
            (Or.inl (by omega)) (by omega)]
      rw [show N - prev.maxDeact - 1 = (N - prev.maxDeact - 2) + 1 by omega]
      simp [activeRunL, activeRunR]
    · by_cases h2 : prev.maxDeact + 2 = N
      · rw [if_neg h1, if_pos h2]
        rw [map_leftSpec_run (deactB [prev]) (prev.maxDeact + 1) (N - prev.maxDeact - 1)
              (fun j ha _ => hdno j (by omega))
              (Or.inr (by simpa using hdpm)),
            map_rightSpec_run (deactB [prev]) N (N - prev.maxDeact - 1) (prev.maxDeact + 1)
              (fun j ha _ => hdno j (by omega))
              (Or.inl (by omega)) (by omega)]
        rw [show N - prev.maxDeact - 1 = 1 by omega]
        simp [activeRunL, activeRunR]
      · rw [if_neg h1, if_neg h2, show N - prev.maxDeact - 1 = 0 by omega]
        simp
  | cons tt rest ih =>
    intro prev hprev hrest hchain
    obtain ⟨hp, hchain'⟩ := List.pairwise_cons.mp hchain
    have hpm_tt : prev.maxDeact < tt.minDeact := hp tt (by simp)
    have htt : tt.minDeact ≤ tt.maxDeact ∧ tt.maxDeact < N := hrest tt (by simp)
    have hrest' : ∀ b ∈ rest, b.minDeact ≤ b.maxDeact ∧ b.maxDeact < N :=
      fun b hb => hrest b (by simp [hb])
    have hbeyond : ∀ b ∈ rest, tt.maxDeact < b.minDeact :=
      (List.pairwise_cons.mp hchain').1
    set pm := prev.maxDeact with hpm
    set d := deactB (prev :: tt :: rest) with hd
    set g := tt.minDeact - pm - 1 with hg
    set b := tt.maxDeact - tt.minDeact + 1 with hbb
    set r := N - tt.maxDeact - 1 with hr
    have hgap : ∀ j, pm < j → j < tt.minDeact → d j = false := by
      intro j h1 h2
      refine deactB_false_of _ _ ?_
      intro x hx
      rcases (by simpa using hx : x = prev ∨ x = tt ∨ x ∈ rest) with rfl | rfl | hx'
      · right; omega
      · left; omega
      · left; have := hbeyond x hx'; omega
    have hdpm : d pm = true := deactB_true_of prev (by simp) hprev le_rfl
    have hdtm : d tt.minDeact = true := deactB_true_of tt (by simp) le_rfl htt.1
    have hblock : ∀ j, tt.minDeact ≤ j → j < tt.minDeact + b → d j = true := by
      intro j h1 h2
      exact deactB_true_of tt (by simp) h1 (by omega)
    have hgapL : (List.range' (pm + 1) g).map (leftSpecM d) = activeRunL g :=
      map_leftSpec_run d (pm + 1) g
        (fun j h1 h2 => hgap j (by omega) (by omega))
        (Or.inr (by simpa using hdpm))
    have hgapR : (List.range' (pm + 1) g).map (rightSpecM d N) = activeRunR g :=
      map_rightSpec_run d N g (pm + 1)
        (fun j h1 h2 => hgap j (by omega) (by omega))
        (Or.inr (by rw [show pm + 1 + g = tt.minDeact by omega]; exact hdtm))
        (by omega)
    have hzeroL : (List.range' tt.minDeact b).map (leftSpecM d) = List.replicate b 0 :=
      map_spec_zeros_left d tt.minDeact b hblock
    have hzeroR : (List.range' tt.minDeact b).map (rightSpecM d N) = List.replicate b 0 :=
      map_spec_zeros_right d N tt.minDeact b hblock
    have hrec := ih tt htt.1 hrest' hchain'
    have hcongrL : ∀ j ∈ List.range' (tt.maxDeact + 1) r,
        leftSpecM (deactB (tt :: rest)) j = leftSpecM d j := by
      intro j hj
      obtain ⟨h1, _⟩ := List.mem_range'_1.mp hj
      have e1 : d j = deactB (tt :: rest) j := deactB_cons_of_gt (by omega)
      have e2 : d (j - 1) = deactB (tt :: rest) (j - 1) := deactB_cons_of_gt (by omega)
      simp only [leftSpecM, ← e1, ← e2]
    have hcongrR : ∀ j ∈ List.range' (tt.maxDeact + 1) r,
        rightSpecM (deactB (tt :: rest)) N j = rightSpecM d N j := by
      intro j hj
      obtain ⟨h1, _⟩ := List.mem_range'_1.mp hj
      have e1 : d j = deactB (tt :: rest) j := deactB_cons_of_gt (by omega)
      have e2 : d (j + 1) = deactB (tt :: rest) (j + 1) := deactB_cons_of_gt (by omega)
      simp only [rightSpecM, ← e1, ← e2]
    have hcount : N - pm - 1 = g + (b + r) := by omega
    simp only [midMasks]
    rw [hcount, range'_split, range'_split,
        show pm + 1 + g = tt.minDeact by omega,
        show tt.minDeact + b = tt.maxDeact + 1 by omega,
        List.map_append, List.map_append, List.map_append, List.map_append,
        hgapL, hgapR, hzeroL, hzeroR, hrec,
        show N - tt.maxDeact - 1 = r by omega,
        List.map_congr_left hcongrL, List.map_congr_left hcongrR]
    by_cases h1 : pm + 2 < tt.minDeact
    · rw [if_pos h1, show g = (tt.minDeact - pm - 2) + 1 by omega]
      simp [activeRunL, activeRunR]
    · by_cases h2 : pm + 2 = tt.minDeact
      · rw [if_neg h1, if_pos h2, show g = 1 by omega]
        simp [activeRunL, activeRunR]
      · rw [if_neg h1, if_neg h2, show g = 0 by omega]
        simp [activeRunL, activeRunR]

lemma hazardMasks_eq (N : ℕ) (tts : List TargetTract) (hN : 1 ≤ N)
    (h : wfTts N tts) :
    hazardMasks N tts =
      ((List.range N).map (leftSpecM (deactB tts)),
       (List.range N).map (rightSpecM (deactB tts) N)) := by
  obtain ⟨hb, hchain⟩ := h
  cases tts with
  | nil =>
    simp only [hazardMasks]
    rw [List.range_eq_range',
        map_leftSpec_run (deactB []) 0 N (fun j _ _ => rfl) (Or.inl rfl),
        map_rightSpec_run (deactB []) N N 0 (fun j _ _ => rfl)
          (Or.inl (by omega)) (by omega)]
    obtain ⟨m, rfl⟩ : ∃ m, N = m + 1 := ⟨N - 1, by omega⟩
    simp [activeRunL, activeRunR]
  | cons t0 rest =>
    obtain ⟨hp, hchain'⟩ := List.pairwise_cons.mp hchain
    have ht0 : t0.minDeact ≤ t0.maxDeact ∧ t0.maxDeact < N := hb t0 (by simp)
    have hrest' : ∀ x ∈ rest, x.minDeact ≤ x.maxDeact ∧ x.maxDeact < N :=
      fun x hx => hb x (by simp [hx])
    set d := deactB (t0 :: rest) with hd
    set g := t0.minDeact with hg
    set bl := t0.maxDeact - t0.minDeact + 1 with hbl
    set r := N - t0.maxDeact - 1 with hr
    have hgap : ∀ j, j < t0.minDeact → d j = false := by
      intro j h2
      refine deactB_false_of _ _ ?_
      intro x hx
      rcases (by simpa using hx : x = t0 ∨ x ∈ rest) with rfl | hx'
      · left; omega
      · left; have := hp x hx'; omega
    have hdtm : d t0.minDeact = true := deactB_true_of t0 (by simp) le_rfl ht0.1
    have hblock : ∀ j, t0.minDeact ≤ j → j < t0.minDeact + bl → d j = true := by
      intro j h1 h2
      exact deactB_true_of t0 (by simp) h1 (by omega)
    have hgapL : (List.range' 0 g).map (leftSpecM d) = activeRunL g :=
      map_leftSpec_run d 0 g (fun j h1 h2 => hgap j (by omega)) (Or.inl rfl)
    have hgapR : (List.range' 0 g).map (rightSpecM d N) = activeRunR g :=
      map_rightSpec_run d N g 0 (fun j h1 h2 => hgap j (by omega))
        (Or.inr (by simpa using hdtm)) (by omega)
    have hzeroL : (List.range' t0.minDeact bl).map (leftSpecM d) = List.replicate bl 0 :=
      map_spec_zeros_left d t0.minDeact bl hblock
    have hzeroR : (List.range' t0.minDeact bl).map (rightSpecM d N) = List.replicate bl 0 :=
      map_spec_zeros_right d N t0.minDeact bl hblock
    have hrec := midMasks_eq N rest t0 ht0.1 hrest' hchain
    have hcount : N = g + (bl + r) := by omega
    have hsplit : List.range N =
        List.range' 0 g ++ (List.range' t0.minDeact bl ++
          List.range' (t0.maxDeact + 1) r) := by
      rw [List.range_eq_range', hcount, range'_split, range'_split,
          show (0 : ℕ) + g = t0.minDeact by omega,
          show t0.minDeact + bl = t0.maxDeact + 1 by omega]
    simp only [hazardMasks]
    rw [hsplit, List.map_append, List.map_append, List.map_append, List.map_append,
        hgapL, hgapR, hzeroL, hzeroR, hrec,
        show N - t0.maxDeact - 1 = r by omega]
    by_cases h1 : 1 < t0.minDeact
    · rw [if_pos h1, show g = (t0.minDeact - 1) + 1 by omega]
      simp [activeRunL, activeRunR]
    · by_cases h2 : t0.minDeact = 1
      · rw [if_neg h1, if_pos h2, show g = 1 by omega]
        simp [activeRunL, activeRunR]
      · rw [if_neg h1, if_neg h2, show g = 0 by omega]
        simp [activeRunL, activeRunR]

/-! ## The hazard-away value in closed form -/

lemma list_sum_range (f : ℕ → ℚ) (n : ℕ) :
    ((List.range n).map f).sum = ∑ i ∈ Finset.range n, f i := by
  induction n with
  | zero => simp
  | succ n ih => rw [List.range_succ, List.map_append, List.sum_append,
      Finset.sum_range_succ, ih]; simp

lemma getD_map_range {i n : ℕ} (hi : i < n) (f : ℕ → ℕ) :
    (((List.range n).map f).getD i 0) = f i := by
  rw [List.getD_eq_getElem?_getD, List.getElem?_map, List.getElem?_range hi]
  rfl

lemma hazardList_spec (p : ModelParams) (tl tr : Bool) (lS rS : ℕ → ℕ) :
    hazardList p tl tr ((List.range p.numTargets).map lS)
        ((List.range p.numTargets).map rS) =
      (List.range p.numTargets).map fun i =>
        p.lam i * maskFactor (lS i) (if tl then 1 - p.trimLongProbLeft else 1) *
          maskFactor (rS i) (if tr then 1 - p.trimLongProbRight else 1) := by
  unfold hazardList
  refine List.map_congr_left ?_
  intro i hi
  rw [getD_map_range (List.mem_range.mp hi), getD_map_range (List.mem_range.mp hi)]

lemma cumsum_map_range (f : ℕ → ℚ) (m : ℕ) :
    cumsum ((List.range m).map f) =
      (List.range m).map fun k => ∑ i ∈ Finset.range (k + 1), f i := by
  unfold cumsum
  rw [List.length_map, List.length_range]
  refine List.map_congr_left ?_
  intro k hk
  have hk' := List.mem_range.mp hk
  rw [← List.map_take, List.take_range, show min (k + 1) m = k + 1 by omega,
    list_sum_range]

lemma zipWith_mul_map_range (u v : ℕ → ℚ) (m : ℕ) :
    List.zipWith (· * ·) ((List.range m).map u) ((List.range m).map v) =
      (List.range m).map fun k => u k * v k := by
  rw [List.zipWith_map_left, List.zipWith_map_right, List.zipWith_same]

lemma take_map_range (f : ℕ → ℚ) (m n : ℕ) (h : m ≤ n) :
    (((List.range n).map f).take m) = (List.range m).map f := by
  rw [← List.map_take, List.take_range, show min m n = m by omega]

lemma drop_one_map_range (f : ℕ → ℚ) (n : ℕ) (h : 1 ≤ n) :
    (((List.range n).map f).drop 1) = (List.range (n - 1)).map fun k => f (1 + k) := by
  rw [← List.map_drop]
  have : List.range n = List.range' 0 1 ++ List.range' 1 (n - 1) := by
    rw [List.range_eq_range', ← range'_split, show 1 + (n - 1) = n by omega]
  rw [this, List.drop_append_of_le_length (by simp)]
  simp [List.range'_eq_map_range, List.map_map]

/-- The hazard-away value of `_create_hazard_away_nodes` written as Finset
sums over the pointwise masks: focal events plus, for every `k`, the
cumulative left hazards up to `k` times the right hazard of target `k+1`. -/
def hazardAwayClosed (p : ModelParams) (d : ℕ → Bool) : ℚ :=
  (∑ i ∈ Finset.range p.numTargets,
    p.lam i * maskFactor (leftSpecM d i) (1 - p.trimLongProbLeft) *
      maskFactor (rightSpecM d p.numTargets i) (1 - p.trimLongProbRight)) +
  ∑ k ∈ Finset.range (p.numTargets - 1),
    (∑ i ∈ Finset.range (k + 1),
      p.lam i * maskFactor (leftSpecM d i) (1 - p.trimLongProbLeft) *
        maskFactor (rightSpecM d p.numTargets i) 1) *
    (p.lam (k + 1) * maskFactor (leftSpecM d (k + 1)) 1 *
      maskFactor (rightSpecM d p.numTargets (k + 1)) (1 - p.trimLongProbRight))

lemma hazardAway_eq_closed (p : ModelParams) (tts : List TargetTract)
    (hN : 1 ≤ p.numTargets) (h : wfTts p.numTargets tts) :
    hazardAway p tts = hazardAwayClosed p (deactB tts) := by
  unfold hazardAway
  rw [hazardMasks_eq _ _ hN h]
  simp only
  rw [hazardList_spec, hazardList_spec, hazardList_spec,
    take_map_range _ _ _ (by omega), drop_one_map_range _ _ hN, cumsum_map_range,
    zipWith_mul_map_range, list_sum_range, list_sum_range]
  unfold hazardAwayClosed
  norm_num [Nat.add_comm]

/-! ## Characterizing `get_possible_target_tracts` -/

lemma activeTargs_sorted (N : ℕ) (tts : List TargetTract) :
    (activeTargs N tts).Pairwise (· < ·) :=
  (List.pairwise_lt_range N).filter _

lemma mem_activeTargs {N : ℕ} {tts : List TargetTract} {i : ℕ} :
    i ∈ activeTargs N tts ↔ i < N ∧ deactB tts i = false := by
  simp [activeTargs, List.mem_filter]

lemma getD_eq_get (A : List ℕ) {i : ℕ} (h : i < A.length) :
    A.getD i 0 = A.get ⟨i, h⟩ := by
  rw [List.getD_eq_getElem?_getD, List.getElem?_eq_getElem h]
  rfl

lemma getD_mem (A : List ℕ) {i : ℕ} (h : i < A.length) : A.getD i 0 ∈ A := by
  rw [getD_eq_get A h]
  exact A.get_mem i h

lemma sorted_getD_lt {A : List ℕ} (hA : A.Pairwise (· < ·)) {i j : ℕ}
    (hij : i < j) (hj : j < A.length) : A.getD i 0 < A.getD j 0 := by
  have hi : i < A.length := lt_trans hij hj
  rw [getD_eq_get A hi, getD_eq_get A hj]
  exact List.pairwise_iff_get.mp hA ⟨i, hi⟩ ⟨j, hj⟩ hij

/-- In a strictly sorted list, a member equal to `A[j] - 1` forces the
adjacency `A[j-1] + 1 = A[j]` used by `get_possible_target_tracts`. -/
lemma sorted_pred_index {A : List ℕ} (hA : A.Pairwise (· < ·)) {j : ℕ}
    (hj : j < A.length) (hpos : 1 ≤ A.getD j 0)
    (hmem : (A.getD j 0 - 1) ∈ A) :
    0 < j ∧ A.getD (j - 1) 0 + 1 = A.getD j 0 := by
  obtain ⟨⟨m, hm⟩, hget⟩ := List.mem_iff_get.mp hmem
  have hmval : A.getD m 0 = A.getD j 0 - 1 := by
    rw [getD_eq_get A hm, hget]
  have hmj : m < j := by
    by_contra hc
    rcases Nat.lt_or_ge j m with h' | h'
    · have := sorted_getD_lt hA h' hm
      omega
    · have : m = j := by omega
      subst this
      omega
  have hj0 : 0 < j := by omega
  refine ⟨hj0, ?_⟩
  rcases Nat.lt_or_ge m (j - 1) with h' | h'
  · have h1 := sorted_getD_lt hA h' (by omega : j - 1 < A.length)
    have h2 := sorted_getD_lt hA (by omega : j - 1 < j) hj
    omega
  · have : m = j - 1 := by omega
    subst this
    omega

/-- In a strictly sorted list, a member equal to `A[k] + 1` forces the
adjacency `A[k+1] = A[k] + 1`. -/
lemma sorted_succ_index {A : List ℕ} (hA : A.Pairwise (· < ·)) {k : ℕ}
    (hk : k < A.length) (hmem : (A.getD k 0 + 1) ∈ A) :
    k + 1 < A.length ∧ A.getD (k + 1) 0 = A.getD k 0 + 1 := by
  obtain ⟨⟨m, hm⟩, hget⟩ := List.mem_iff_get.mp hmem
  have hmval : A.getD m 0 = A.getD k 0 + 1 := by
    rw [getD_eq_get A hm, hget]
  have hkm : k < m := by
    by_contra hc
    rcases Nat.lt_or_ge m k with h' | h'
    · have := sorted_getD_lt hA h' hk
      omega
    · have : m = k := by omega
      subst this
      omega
  have hk1 : k + 1 < A.length := by omega
  refine ⟨hk1, ?_⟩
  rcases Nat.lt_or_ge (k + 1) m with h' | h'
  · have h1 := sorted_getD_lt hA h' hm
    have h2 := sorted_getD_lt hA (by omega : k < k + 1) hk1
    omega
  · have : m = k + 1 := by omega
    subst this
    omega

lemma mem_allStarts {A : List ℕ} {j : ℕ} {s : ℕ × ℕ} :
    s ∈ allStarts A j ↔
      s = (A.getD j 0, A.getD j 0) ∨
      ((0 < j ∧ A.getD (j - 1) 0 + 1 = A.getD j 0) ∧
        s = (A.getD (j - 1) 0, A.getD j 0)) := by
  unfold allStarts
  by_cases hc : 0 < j ∧ A.getD (j - 1) 0 + 1 = A.getD j 0 <;>
    simp [hc] <;> tauto

lemma mem_allEnds {A : List ℕ} {k : ℕ} {e : ℕ × ℕ} :
    e ∈ allEnds A k ↔
      e = (A.getD k 0, A.getD k 0) ∨
      ((k + 1 < A.length ∧ A.getD (k + 1) 0 = A.getD k 0 + 1) ∧
        e = (A.getD k 0, A.getD (k + 1) 0)) := by
  unfold allEnds
  by_cases hc : k + 1 < A.length ∧ A.getD (k + 1) 0 = A.getD k 0 + 1 <;>
    simp [hc]

lemma mem_possibleTTList {A : List ℕ} {tt : TargetTract} :
    tt ∈ possibleTTList A ↔
      ∃ j k, j < A.length ∧ k < A.length ∧ j ≤ k ∧
        ∃ s ∈ allStarts A j, ∃ e ∈ allEnds A k,
          tt = ⟨s.1, s.2, e.1, e.2⟩ := by
  unfold possibleTTList
  simp only [List.mem_flatMap, List.mem_map, List.mem_range, List.mem_range'_1]
  constructor
  · rintro ⟨j, hj, k, ⟨hjk, hk⟩, s, hs, e, he, rfl⟩
    exact ⟨j, k, hj, by omega, hjk, s, hs, e, he, rfl⟩
  · rintro ⟨j, k, hj, hk, hjk, s, hs, e, he, rfl⟩
    exact ⟨j, hj, k, ⟨hjk, by omega⟩, s, hs, e, he, rfl⟩

/-- Value-level description of the events `get_possible_target_tracts`
enumerates over the active-target list `A`: cut targets `a ≤ b` in `A`,
with the long-left variant available exactly when `a`'s left neighbour
`a-1` is also in `A`, and symmetrically on the right. -/
def isPossible (A : List ℕ) (tt : TargetTract) : Prop :=
  tt.minTarget ∈ A ∧ tt.maxTarget ∈ A ∧ tt.minTarget ≤ tt.maxTarget ∧
  (tt.minDeact = tt.minTarget ∨
    (1 ≤ tt.minTarget ∧ tt.minDeact = tt.minTarget - 1 ∧
      (tt.minTarget - 1) ∈ A)) ∧
  (tt.maxDeact = tt.maxTarget ∨
    (tt.maxDeact = tt.maxTarget + 1 ∧ (tt.maxTarget + 1) ∈ A))

lemma mem_possible_iff {A : List ℕ} (hA : A.Pairwise (· < ·))
    (tt : TargetTract) :
    tt ∈ possibleTargetTracts A ↔ isPossible A tt := by
  rw [possibleTargetTracts, List.mem_toFinset, mem_possibleTTList]
  constructor
  · rintro ⟨j, k, hj, hk, hjk, s, hs, e, he, rfl⟩
    have hjkle : A.getD j 0 ≤ A.getD k 0 := by
      rcases Nat.lt_or_ge j k with h' | h'
      · exact le_of_lt (sorted_getD_lt hA h' hk)
      · have : j = k := by omega
        subst this; exact le_rfl
    have hLfoc : ∀ a : ℕ, (⟨a, a, 0, 0⟩ : TargetTract).minDeact =
        (⟨a, a, 0, 0⟩ : TargetTract).minTarget := fun a => rfl
    rcases mem_allStarts.mp hs with rfl | ⟨⟨hj0, hadj⟩, rfl⟩ <;>
      rcases mem_allEnds.mp he with rfl | ⟨⟨hk1, hadj'⟩, rfl⟩
    · exact ⟨getD_mem A hj, getD_mem A hk, hjkle, Or.inl rfl, Or.inl rfl⟩
    · refine ⟨getD_mem A hj, getD_mem A hk, hjkle, Or.inl rfl,
        Or.inr ⟨hadj', ?_⟩⟩
      show (A.getD k 0 + 1) ∈ A
      rw [← hadj']
      exact getD_mem A hk1
    · refine ⟨getD_mem A hj, getD_mem A hk, hjkle,
        Or.inr ⟨?_, ?_, ?_⟩, Or.inl rfl⟩
      · show 1 ≤ A.getD j 0
        omega
      · show A.getD (j - 1) 0 = A.getD j 0 - 1
        omega
      · show (A.getD j 0 - 1) ∈ A
        rw [show A.getD j 0 - 1 = A.getD (j - 1) 0 by omega]
        exact getD_mem A (by omega : j - 1 < A.length)
    · refine ⟨getD_mem A hj, getD_mem A hk, hjkle,
        Or.inr ⟨?_, ?_, ?_⟩, Or.inr ⟨hadj', ?_⟩⟩
      · show 1 ≤ A.getD j 0
        omega
      · show A.getD (j - 1) 0 = A.getD j 0 - 1
        omega
      · show (A.getD j 0 - 1) ∈ A
        rw [show A.getD j 0 - 1 = A.getD (j - 1) 0 by omega]
        exact getD_mem A (by omega : j - 1 < A.length)
      · show (A.getD k 0 + 1) ∈ A
        rw [← hadj']
        exact getD_mem A hk1
  · rintro ⟨hminT, hmaxT, hle, hL, hR⟩
    obtain ⟨⟨j, hjlen⟩, hjval⟩ := List.mem_iff_get.mp hminT
    obtain ⟨⟨k, hklen⟩, hkval⟩ := List.mem_iff_get.mp hmaxT
    have hjval' : A.getD j 0 = tt.minTarget := by rw [getD_eq_get A hjlen, hjval]
    have hkval' : A.getD k 0 = tt.maxTarget := by rw [getD_eq_get A hklen, hkval]
    have hjk : j ≤ k := by
      by_contra hc
      have := sorted_getD_lt hA (by omega : k < j) hjlen
      omega
    refine ⟨j, k, hjlen, hklen, hjk, ?_⟩
    have hs : ∃ s ∈ allStarts A j, s = (tt.minDeact, tt.minTarget) := by
      rcases hL with hfoc | ⟨hpos, hdeact, hnb⟩
      · exact ⟨(A.getD j 0, A.getD j 0), mem_allStarts.mpr (Or.inl rfl),
          by rw [hjval', hfoc]⟩
      · have hadj := sorted_pred_index hA hjlen (by omega) (by rw [hjval']; exact hnb)
        exact ⟨(A.getD (j - 1) 0, A.getD j 0),
          mem_allStarts.mpr (Or.inr ⟨hadj, rfl⟩),
          by rw [hjval']; rw [show A.getD (j - 1) 0 = tt.minTarget - 1 by omega, hdeact]⟩
    have he : ∃ e ∈ allEnds A k, e = (tt.maxTarget, tt.maxDeact) := by
      rcases hR with hfoc | ⟨hdeact, hnb⟩
      · exact ⟨(A.getD k 0, A.getD k 0), mem_allEnds.mpr (Or.inl rfl),
          by rw [hkval', hfoc]⟩
      · have hadj := sorted_succ_index hA hklen (by rw [hkval']; exact hnb)
        exact ⟨(A.getD k 0, A.getD (k + 1) 0),
          mem_allEnds.mpr (Or.inr ⟨hadj, rfl⟩),
          by rw [hkval']; rw [show A.getD (k + 1) 0 = tt.maxTarget + 1 by omega, hdeact]⟩
    obtain ⟨s, hsmem, hseq⟩ := hs
    obtain ⟨e, hemem, heeq⟩ := he
    refine ⟨s, hsmem, e, hemem, ?_⟩
    rw [hseq, heeq]

/-- The target tract determined by cut targets `a ≤ b` and the two long
flags. -/
def ttEventOf (q : (ℕ × ℕ) × Bool × Bool) : TargetTract :=
  ⟨if q.2.1 then q.1.1 - 1 else q.1.1, q.1.1, q.1.2,
   if q.2.2 then q.1.2 + 1 else q.1.2⟩

/-- The admissible (a, b, long-left, long-right) combinations over the
active-target list `A`. -/
def eventParams (A : List ℕ) : Finset ((ℕ × ℕ) × Bool × Bool) :=
  ((A.toFinset ×ˢ A.toFinset) ×ˢ (Finset.univ : Finset (Bool × Bool))).filter
    fun q => q.1.1 ≤ q.1.2 ∧ (q.2.1 = true → 1 ≤ q.1.1 ∧ (q.1.1 - 1) ∈ A) ∧
      (q.2.2 = true → (q.1.2 + 1) ∈ A)

lemma possible_eq_image {A : List ℕ} (hA : A.Pairwise (· < ·)) :
    possibleTargetTracts A = (eventParams A).image ttEventOf := by
  ext tt
  rw [mem_possible_iff hA, Finset.mem_image]
  constructor
  · rintro ⟨hminT, hmaxT, hle, hL, hR⟩
    obtain ⟨mD, mT, xT, xD⟩ := tt
    dsimp only at hminT hmaxT hle hL hR
    refine ⟨((mT, xT),
      (decide (mD ≠ mT), decide (xD ≠ xT))), ?_, ?_⟩
    · rw [eventParams, Finset.mem_filter]
      refine ⟨by simp [Finset.mem_product, hminT, hmaxT], hle, ?_, ?_⟩
      · intro h
        simp only [decide_eq_true_eq] at h
        rcases hL with h' | ⟨h1, h2, h3⟩
        · exact absurd h' h
        · exact ⟨h1, h3⟩
      · intro h
        simp only [decide_eq_true_eq] at h
        rcases hR with h' | ⟨h1, h2⟩
        · exact absurd h' h
        · exact h2
    · have e1 : (if decide (mD ≠ mT) = true then mT - 1 else mT) = mD := by
        rcases hL with h' | ⟨h1, h2, _⟩
        · rw [if_neg (by simp [h']), h']
        · have hne : mD ≠ mT := by omega
          rw [if_pos (by simpa using hne), h2]
      have e2 : (if decide (xD ≠ xT) = true then xT + 1 else xT) = xD := by
        rcases hR with h' | ⟨h1, _⟩
        · rw [if_neg (by simp [h']), h']
        · have hne : xD ≠ xT := by omega
          rw [if_pos (by simpa using hne), h1]
      simp only [ttEventOf, TargetTract.mk.injEq]
      exact ⟨e1, by trivial, by trivial, e2⟩
  · rintro ⟨⟨⟨a, b⟩, ll, rl⟩, hq, rfl⟩
    rw [eventParams, Finset.mem_filter] at hq
    obtain ⟨hprod, hab, hll, hrl⟩ := hq
    rw [Finset.mem_product] at hprod
    obtain ⟨hab', _⟩ := hprod
    rw [Finset.mem_product] at hab'
    have ha : a ∈ A := by simpa using hab'.1
    have hb : b ∈ A := by simpa using hab'.2
    cases ll <;> cases rl <;>
      refine ⟨by simpa [ttEventOf] using ha, by simpa [ttEventOf] using hb,
        by simpa [ttEventOf] using hab, ?_, ?_⟩
    · exact Or.inl rfl
    · exact Or.inl rfl
    · exact Or.inl rfl
    · exact Or.inr ⟨rfl, by simpa [ttEventOf] using hrl rfl⟩
    · exact Or.inr ⟨(hll rfl).1, rfl, by simpa [ttEventOf] using (hll rfl).2⟩
    · exact Or.inl rfl
    · exact Or.inr ⟨(hll rfl).1, rfl, by simpa [ttEventOf] using (hll rfl).2⟩
    · exact Or.inr ⟨rfl, by simpa [ttEventOf] using hrl rfl⟩

lemma ttEventOf_injOn (A : List ℕ) :
    ∀ q ∈ eventParams A, ∀ q' ∈ eventParams A,
      ttEventOf q = ttEventOf q' → q = q' := by
  rintro ⟨⟨a, b⟩, ll, rl⟩ hq ⟨⟨a', b'⟩, ll', rl'⟩ hq' heq
  rw [eventParams, Finset.mem_filter] at hq hq'
  have h1 := hq.2.2.1
  have h1' := hq'.2.2.1
  simp only [ttEventOf, TargetTract.mk.injEq] at heq
  obtain ⟨e1, e2, e3, e4⟩ := heq
  subst e2; subst e3
  have hllq : ll = ll' := by
    cases ll <;> cases ll' <;> try rfl
    · exfalso
      have ha : 1 ≤ a := (h1' rfl).1
      simp at e1
      omega
    · exfalso
      have ha : 1 ≤ a := (h1 rfl).1
      simp at e1
      omega
  have hrlq : rl = rl' := by
    cases rl <;> cases rl' <;> try rfl
    · exfalso; simp at e4
    · exfalso; simp at e4
  rw [hllq, hrlq]

lemma hazard_ttEventOf (p : ModelParams) (a b : ℕ) (ll rl : Bool)
    (hll : ll = true → 1 ≤ a) :
    hazard p (ttEventOf ((a, b), (ll, rl))) =
      p.lam a * (if a = b then 1 else p.lam b) *
      (if ll then p.trimLongProbLeft else 1 - p.trimLongProbLeft) *
      (if rl then p.trimLongProbRight else 1 - p.trimLongProbRight) := by
  have hL : TargetTract.isLeftLong (ttEventOf ((a, b), (ll, rl))) = ll := by
    cases ll
    · simp [ttEventOf, TargetTract.isLeftLong]
    · have h1 : 1 ≤ a := hll rfl
      simp only [ttEventOf, TargetTract.isLeftLong]
      simp
      omega
  have hR : TargetTract.isRightLong (ttEventOf ((a, b), (ll, rl))) = rl := by
    cases rl <;> simp [ttEventOf, TargetTract.isRightLong]
  have e1 : (ttEventOf ((a, b), ll, rl)).minTarget = a := rfl
  have e2 : (ttEventOf ((a, b), ll, rl)).maxTarget = b := rfl
  unfold hazard
  rw [hL, hR, e1, e2]

lemma activeTargs_toFinset (N : ℕ) (tts : List TargetTract) :
    (activeTargs N tts).toFinset =
      (Finset.range N).filter (fun i => deactB tts i = false) := by
  ext i
  simp only [List.mem_toFinset, mem_activeTargs, Finset.mem_filter, Finset.mem_range]

lemma maskFactor_left_zero {tts : List TargetTract} {i : ℕ} (c : ℚ)
    (h : deactB tts i = true) : maskFactor (leftSpecM (deactB tts) i) c = 0 := by
  simp [maskFactor, leftSpecM, h]

lemma maskFactor_right_zero {tts : List TargetTract} {N i : ℕ} (c : ℚ)
    (h : deactB tts i = true) :
    maskFactor (rightSpecM (deactB tts) N i) c = 0 := by
  simp [maskFactor, rightSpecM, h]

lemma maskFactor_left_one {tts : List TargetTract} {a : ℕ}
    (hact : deactB tts a = false) :
    maskFactor (leftSpecM (deactB tts) a) 1 = 1 := by
  by_cases h : a = 0 ∨ deactB tts (a - 1) = true <;>
    simp [maskFactor, leftSpecM, hact, h]

lemma maskFactor_right_one {N : ℕ} {tts : List TargetTract} {b : ℕ}
    (hact : deactB tts b = false) :
    maskFactor (rightSpecM (deactB tts) N b) 1 = 1 := by
  by_cases h : b = N - 1 ∨ deactB tts (b + 1) = true <;>
    simp [maskFactor, rightSpecM, hact, h]

lemma leftFactor_sum (p : ModelParams) {N : ℕ} {tts : List TargetTract} {a : ℕ}
    (ha : a ∈ activeTargs N tts) :
    (1 - p.trimLongProbLeft) +
      (if 1 ≤ a ∧ (a - 1) ∈ activeTargs N tts then p.trimLongProbLeft else 0) =
    maskFactor (leftSpecM (deactB tts) a) (1 - p.trimLongProbLeft) := by
  obtain ⟨haN, hact⟩ := mem_activeTargs.mp ha
  by_cases h : 1 ≤ a ∧ (a - 1) ∈ activeTargs N tts
  · obtain ⟨h1, h2⟩ := h
    obtain ⟨_, hact'⟩ := mem_activeTargs.mp h2
    have h2' : leftSpecM (deactB tts) a = 2 := by
      simp only [leftSpecM]
      rw [if_neg (by simp [hact]), if_neg (by simp [hact']; omega)]
    rw [if_pos ⟨h1, h2⟩, h2']
    simp [maskFactor]
  · have hcond : a = 0 ∨ deactB tts (a - 1) = true := by
      by_cases ha0 : a = 0
      · exact Or.inl ha0
      · right
        by_contra hd
        exact h ⟨by omega,
          mem_activeTargs.mpr ⟨by omega, by simpa using hd⟩⟩
    have h1' : leftSpecM (deactB tts) a = 1 := by
      simp only [leftSpecM]
      rw [if_neg (by simp [hact]), if_pos hcond]
    rw [if_neg h, h1']
    simp [maskFactor]

lemma rightFactor_sum (p : ModelParams) {N : ℕ} {tts : List TargetTract} {b : ℕ}
    (hb : b ∈ activeTargs N tts) :
    (1 - p.trimLongProbRight) +
      (if (b + 1) ∈ activeTargs N tts then p.trimLongProbRight else 0) =
    maskFactor (rightSpecM (deactB tts) N b) (1 - p.trimLongProbRight) := by
  obtain ⟨hbN, hact⟩ := mem_activeTargs.mp hb
  by_cases h : (b + 1) ∈ activeTargs N tts
  · obtain ⟨hbN', hact'⟩ := mem_activeTargs.mp h
    have h2' : rightSpecM (deactB tts) N b = 2 := by
      simp only [rightSpecM]
      rw [if_neg (by simp [hact]), if_neg (by simp [hact']; omega)]
    rw [if_pos h, h2']
    simp [maskFactor]
  · have hcond : b = N - 1 ∨ deactB tts (b + 1) = true := by
      by_cases hb1 : b = N - 1
      · exact Or.inl hb1
      · right
        by_contra hd
        exact h (mem_activeTargs.mpr ⟨by omega, by simpa using hd⟩)
    have h1' : rightSpecM (deactB tts) N b = 1 := by
      simp only [rightSpecM]
      rw [if_neg (by simp [hact]), if_pos hcond]
    rw [if_neg h, h1']
    simp [maskFactor]

lemma flags_sum_eq (p : ModelParams) {N : ℕ} {tts : List TargetTract} {a b : ℕ}
    (ha : a ∈ activeTargs N tts) (hb : b ∈ activeTargs N tts) :
    (∑ y : Bool × Bool,
      if a ≤ b ∧ (y.1 = true → 1 ≤ a ∧ (a - 1) ∈ activeTargs N tts) ∧
          (y.2 = true → (b + 1) ∈ activeTargs N tts) then
        hazard p (ttEventOf ((a, b), y)) else 0) =
    if a ≤ b then
      p.lam a * (if a = b then 1 else p.lam b) *
        maskFactor (leftSpecM (deactB tts) a) (1 - p.trimLongProbLeft) *
        maskFactor (rightSpecM (deactB tts) N b) (1 - p.trimLongProbRight)
    else 0 := by
  by_cases hab : a ≤ b
  · rw [← leftFactor_sum p ha, ← rightFactor_sum p hb]
    by_cases hEq : a = b
    · subst hEq
      by_cases hPL : 1 ≤ a ∧ (a - 1) ∈ activeTargs N tts <;>
        by_cases hPR : (a + 1) ∈ activeTargs N tts <;>
        simp [Fintype.sum_prod_type, Fintype.sum_bool, hPL, hPR,
          hazard_ttEventOf] <;>
        ring
    · by_cases hPL : 1 ≤ a ∧ (a - 1) ∈ activeTargs N tts <;>
        by_cases hPR : (b + 1) ∈ activeTargs N tts <;>
        simp [Fintype.sum_prod_type, Fintype.sum_bool, hab, hPL, hPR, hEq,
          hazard_ttEventOf] <;>
        ring
  · simp [hab]

lemma ite_le_split (a b : ℕ) (x : ℚ) :
    (if a ≤ b then x else 0) =
      (if b = a then x else 0) + (if a < b then x else 0) := by
  rcases Nat.lt_trichotomy a b with h | rfl | h
  · rw [if_pos (le_of_lt h), if_neg (by omega), if_pos h, zero_add]
  · simp
  · rw [if_neg (by omega), if_neg (by omega), if_neg (by omega)]
    simp

lemma inter_reshape (L R : ℕ → ℚ) (n : ℕ) :
    (∑ k ∈ Finset.range n, (∑ i ∈ Finset.range (k + 1), L i) * R (k + 1)) =
      ∑ b ∈ Finset.range (n + 1), ∑ a ∈ Finset.range b, L a * R b := by
  rw [Finset.sum_range_succ']
  simp only [Finset.range_zero, Finset.sum_empty, add_zero]
  exact Finset.sum_congr rfl fun k _ => Finset.sum_mul ..

lemma pair_sum_reshape (lam LF RF LF1 RF1 : ℕ → ℚ) (act : ℕ → Prop)
    [DecidablePred act] (n : ℕ)
    (hLF0 : ∀ i, ¬ act i → LF i = 0)
    (hRF0 : ∀ i, ¬ act i → RF i = 0)
    (hLF1 : ∀ i, act i → LF1 i = 1)
    (hRF1 : ∀ i, act i → RF1 i = 1) :
    (∑ a ∈ (Finset.range (n + 1)).filter (fun i => act i),
      ∑ b ∈ (Finset.range (n + 1)).filter (fun i => act i),
        if a ≤ b then lam a * (if a = b then 1 else lam b) * LF a * RF b
        else 0) =
    (∑ i ∈ Finset.range (n + 1), lam i * LF i * RF i) +
    ∑ k ∈ Finset.range n,
      (∑ i ∈ Finset.range (k + 1), lam i * LF i * RF1 i) *
        (lam (k + 1) * LF1 (k + 1) * RF (k + 1)) := by
  rw [inter_reshape (fun i => lam i * LF i * RF1 i)
    (fun b => lam b * LF1 b * RF b) n]
  have hsplit :
      (∑ a ∈ (Finset.range (n + 1)).filter (fun i => act i),
        ∑ b ∈ (Finset.range (n + 1)).filter (fun i => act i),
          if a ≤ b then lam a * (if a = b then 1 else lam b) * LF a * RF b
          else 0) =
      (∑ a ∈ (Finset.range (n + 1)).filter (fun i => act i),
        lam a * LF a * RF a) +
      ∑ a ∈ (Finset.range (n + 1)).filter (fun i => act i),
        ∑ b ∈ (Finset.range (n + 1)).filter (fun i => act i),
          if a < b then lam a * lam b * LF a * RF b else 0 := by
    rw [← Finset.sum_add_distrib]
    refine Finset.sum_congr rfl fun a hamem => ?_
    rw [Finset.sum_congr rfl
        (fun b _ => ite_le_split a b (lam a * (if a = b then 1 else lam b) * LF a * RF b)),
      Finset.sum_add_distrib, Finset.sum_ite_eq', if_pos hamem]
    congr 1
    · simp
    · refine Finset.sum_congr rfl fun b _ => ?_
      by_cases hlt : a < b
      · rw [if_pos hlt, if_pos hlt, if_neg (by omega)]
      · rw [if_neg hlt, if_neg hlt]
  rw [hsplit]
  congr 1
  · rw [Finset.sum_filter]
    refine Finset.sum_congr rfl fun i _ => ?_
    by_cases hact : act i
    · rw [if_pos hact]
    · rw [if_neg hact, hLF0 i hact]
      ring
  · rw [Finset.sum_comm]
    rw [Finset.sum_filter]
    refine Finset.sum_congr rfl fun b hb => ?_
    by_cases hactb : act b
    · rw [if_pos hactb, Finset.sum_filter]
      have hbn : b < n + 1 := Finset.mem_range.mp hb
      rw [← Finset.sum_subset (Finset.range_subset.mpr (by omega : b ≤ n + 1))
          (fun a _ ha => by
            have : ¬ a < b := by
              have := Finset.mem_range.not.mp ha
              omega
            rw [if_neg this]
            simp)]
      refine Finset.sum_congr rfl fun a hamem => ?_
      have halt : a < b := Finset.mem_range.mp hamem
      rw [if_pos halt]
      by_cases hacta : act a
      · rw [if_pos hacta, hRF1 a hacta, hLF1 b hactb]
        ring
      · rw [if_neg hacta, hLF0 a hacta]
        ring
    · rw [if_neg hactb]
      have : ∀ a ∈ Finset.range b, lam a * LF a * RF1 a *
          (lam b * LF1 b * RF b) = 0 := fun a _ => by
        rw [hRF0 b hactb]
        ring
      rw [Finset.sum_congr rfl this]
      simp

lemma sum_possible_eq_closed (p : ModelParams) (tts : List TargetTract)
    (hN : 1 ≤ p.numTargets) :
    (∑ tt ∈ possibleTargetTracts (activeTargs p.numTargets tts), hazard p tt) =
      hazardAwayClosed p (deactB tts) := by
  have hA : (activeTargs p.numTargets tts).Pairwise (· < ·) :=
    activeTargs_sorted p.numTargets tts
  rw [possible_eq_image hA,
    Finset.sum_image (ttEventOf_injOn (activeTargs p.numTargets tts)),
    eventParams, Finset.sum_filter, Finset.sum_product, Finset.sum_product]
  have hstep1 :
      (∑ a ∈ (activeTargs p.numTargets tts).toFinset,
        ∑ b ∈ (activeTargs p.numTargets tts).toFinset,
          ∑ y ∈ (Finset.univ : Finset (Bool × Bool)),
            if a ≤ b ∧ (y.1 = true → 1 ≤ a ∧ (a - 1) ∈ activeTargs p.numTargets tts) ∧
                (y.2 = true → (b + 1) ∈ activeTargs p.numTargets tts) then
              hazard p (ttEventOf ((a, b), y)) else 0) =
      ∑ a ∈ (activeTargs p.numTargets tts).toFinset,
        ∑ b ∈ (activeTargs p.numTargets tts).toFinset,
          if a ≤ b then
            p.lam a * (if a = b then 1 else p.lam b) *
              maskFactor (leftSpecM (deactB tts) a) (1 - p.trimLongProbLeft) *
              maskFactor (rightSpecM (deactB tts) p.numTargets b)
                (1 - p.trimLongProbRight)
          else 0 := by
    refine Finset.sum_congr rfl fun a hamem => Finset.sum_congr rfl fun b hbmem => ?_
    exact flags_sum_eq p (List.mem_toFinset.mp hamem) (List.mem_toFinset.mp hbmem)
  rw [hstep1, activeTargs_toFinset]
  unfold hazardAwayClosed
  obtain ⟨n, hn⟩ : ∃ n, p.numTargets = n + 1 := ⟨p.numTargets - 1, by omega⟩
  rw [hn]
  simp only [Nat.add_sub_cancel]
  exact pair_sum_reshape p.lam
    (fun i => maskFactor (leftSpecM (deactB tts) i) (1 - p.trimLongProbLeft))
    (fun i => maskFactor (rightSpecM (deactB tts) (n + 1) i) (1 - p.trimLongProbRight))
    (fun i => maskFactor (leftSpecM (deactB tts) i) 1)
    (fun i => maskFactor (rightSpecM (deactB tts) (n + 1) i) 1)
    (fun i => deactB tts i = false) n
    (fun i hi => maskFactor_left_zero _ (by simpa using hi))
    (fun i hi => maskFactor_right_zero _ (by simpa using hi))
    (fun i hi => maskFactor_left_one hi)
    (fun i hi => maskFactor_right_one hi)

/-- The mask-and-fold hazard away of `_create_hazard_away_nodes` equals the
sum of the hazards of the one-step events of `get_possible_target_tracts`. -/
lemma hazardAway_eq_sum_possible (p : ModelParams) (tts : List TargetTract)
    (hN : 1 ≤ p.numTargets) (h : wfTts p.numTargets tts) :
    hazardAway p tts =
      ∑ tt ∈ possibleTargetTracts (activeTargs p.numTargets tts), hazard p tt := by
  rw [hazardAway_eq_closed p tts hN h, sum_possible_eq_closed p tts hN]

lemma getD_mem_q (A : List ℚ) {i : ℕ} (h : i < A.length) : A.getD i 0 ∈ A := by
  rw [List.getD_eq_getElem?_getD, List.getElem?_eq_getElem h]
  exact List.getElem_mem h

lemma lam_nonneg (p : ModelParams) (hlam : ∀ x ∈ p.targetLams, 0 ≤ x) (i : ℕ) :
    0 ≤ p.lam i := by
  unfold ModelParams.lam
  rcases Nat.lt_or_ge i p.targetLams.length with h | h
  · exact hlam _ (getD_mem_q p.targetLams h)
  · rw [List.getD_eq_default _ _ h]

lemma hazard_nonneg (p : ModelParams) (hlam : ∀ x ∈ p.targetLams, 0 ≤ x)
    (hpL0 : 0 ≤ p.trimLongProbLeft) (hpL1 : p.trimLongProbLeft ≤ 1)
    (hpR0 : 0 ≤ p.trimLongProbRight) (hpR1 : p.trimLongProbRight ≤ 1)
    (tt : TargetTract) : 0 ≤ hazard p tt := by
  unfold hazard
  have h1 := lam_nonneg p hlam tt.minTarget
  have h2 := lam_nonneg p hlam tt.maxTarget
  refine mul_nonneg (mul_nonneg (mul_nonneg h1 ?_) ?_) ?_
  · split <;> [exact zero_le_one; exact h2]
  · split <;> [exact hpL0; linarith]
  · split <;> [exact hpR0; linarith]

lemma find?_eq_of_nodup {rows : List SkeletonRow}
    (hnd : (rows.map SkeletonRow.startIdx).Nodup) {r : SkeletonRow}
    (hr : r ∈ rows) :
    rows.find? (fun x => x.startIdx = r.startIdx) = some r := by
  induction rows with
  | nil => cases hr
  | cons hd tl ih =>
    rw [List.map_cons, List.nodup_cons] at hnd
    rcases List.mem_cons.mp hr with rfl | hmem
    · rw [List.find?_cons_of_pos _ (by simp)]
    · have hne : hd.startIdx ≠ r.startIdx := by
        intro hc
        exact hnd.1 (hc ▸ List.mem_map_of_mem SkeletonRow.startIdx hmem)
      rw [List.find?_cons_of_neg _ (by simpa using hne)]
      exact ih hnd.2 hmem

lemma filter_key_sum {l : List (ℕ × TargetTract)} (p : ModelParams)
    (hnd : (l.map Prod.fst).Nodup) {j : ℕ} {e : TargetTract}
    (hmem : (j, e) ∈ l) :
    ((l.filter fun x => x.1 = j).map fun x => hazard p x.2).sum = hazard p e := by
  induction l with
  | nil => cases hmem
  | cons hd tl ih =>
    rw [List.map_cons, List.nodup_cons] at hnd
    rcases List.mem_cons.mp hmem with rfl | hmem'
    · rw [List.filter_cons_of_pos (by simp)]
      have : ∀ x ∈ tl, ¬(x.1 = j) := by
        intro x hx hc
        have hmm : x.1 ∈ List.map Prod.fst tl := List.mem_map_of_mem Prod.fst hx
        rw [hc] at hmm
        exact hnd.1 hmm
      rw [List.filter_eq_nil_iff.mpr (by intro x hx; simpa using this x hx)]
      simp
    · have hne : hd.1 ≠ j := by
        intro hc
        apply hnd.1
        rw [hc]
        simpa using List.mem_map_of_mem Prod.fst hmem'
      rw [List.filter_cons_of_neg (by simpa using hne)]
      exact ih hnd.2 hmem'

lemma fiber_sum_eq {l : List (ℕ × TargetTract)} (p : ModelParams)
    {T : Finset ℕ} (hkeys : ∀ x ∈ l, x.1 ∈ T) :
    (∑ j ∈ T, ((l.filter fun x => x.1 = j).map fun x => hazard p x.2).sum) =
      (l.map fun x => hazard p x.2).sum := by
  induction l with
  | nil => simp
  | cons hd tl ih =>
    have hsplit : ∀ j, ((((hd :: tl).filter fun x => x.1 = j).map
        fun x => hazard p x.2).sum) =
        (if hd.1 = j then hazard p hd.2 else 0) +
        ((tl.filter fun x => x.1 = j).map fun x => hazard p x.2).sum := by
      intro j
      by_cases hc : hd.1 = j
      · rw [List.filter_cons_of_pos (by simpa using hc), if_pos hc]
        simp
      · rw [List.filter_cons_of_neg (by simpa using hc), if_neg hc]
        simp
    rw [Finset.sum_congr rfl fun j _ => hsplit j, Finset.sum_add_distrib,
      ih (fun x hx => hkeys x (by simp [hx])), List.map_cons, List.sum_cons]
    congr 1
    rw [Finset.sum_ite_eq T hd.1 (fun _ => hazard p hd.2),
      if_pos (hkeys hd (by simp))]

example :
    ∑ tt ∈ possibleTargetTracts (activeTargs 2 []),
      hazard ⟨[1/2, 1/2], 0, 0⟩ tt = 5/4 := by
  rw [show possibleTargetTracts (activeTargs 2 []) =
      ({⟨0,0,0,0⟩, ⟨0,0,0,1⟩, ⟨0,0,1,1⟩, ⟨1,1,1,1⟩, ⟨0,1,1,1⟩} : Finset TargetTract)
    from by decide]
  norm_num [hazard, TargetTract.isLeftLong, TargetTract.isRightLong,
    ModelParams.lam, Finset.sum_insert, Finset.mem_insert]

lemma qMatrix_diag (p : ModelParams) (S : ℕ) (rows : List SkeletonRow)
    (hnd : (rows.map SkeletonRow.startIdx).Nodup) {r : SkeletonRow}
    (hr : r ∈ rows) :
    qMatrix p S rows r.startIdx r.startIdx = -(hazardAway p r.startTts) := by
  simp only [qMatrix, find?_eq_of_nodup hnd hr, rowEntry]
  simp

lemma qMatrix_entry (p : ModelParams) (S : ℕ) (rows : List SkeletonRow)
    (hnd : (rows.map SkeletonRow.startIdx).Nodup) {r : SkeletonRow}
    (hr : r ∈ rows) (hknd : (r.trans.map Prod.fst).Nodup) {x : ℕ × TargetTract}
    (hx : x ∈ r.trans) (h1 : x.1 < S) (h2 : x.1 ≠ r.startIdx) :
    qMatrix p S rows r.startIdx x.1 = hazard p x.2 := by
  simp only [qMatrix, find?_eq_of_nodup hnd hr, rowEntry]
  rw [if_neg h2, if_neg (by omega)]
  exact filter_key_sum p hknd hx

lemma qMatrix_unlikely (p : ModelParams) (S : ℕ) (rows : List SkeletonRow)
    (hnd : (rows.map SkeletonRow.startIdx).Nodup) {r : SkeletonRow}
    (hr : r ∈ rows) (hS : r.startIdx < S) :
    qMatrix p S rows r.startIdx S =
      hazardAway p r.startTts - ((r.trans.map fun x => hazard p x.2).sum) := by
  simp only [qMatrix, find?_eq_of_nodup hnd hr, rowEntry]
  rw [if_neg (show ¬ S = r.startIdx by omega)]
  simp

lemma qMatrix_absorbing (p : ModelParams) (S : ℕ) (rows : List SkeletonRow)
    (hstart : ∀ r ∈ rows, r.startIdx < S) (j : ℕ) :
    qMatrix p S rows S j = 0 := by
  have : rows.find? (fun x => x.startIdx = S) = none :=
    List.find?_eq_none.mpr fun x hx => by
      have := hstart x hx
      simp
      omega
  simp only [qMatrix, this]

lemma qMatrix_row_sum (p : ModelParams) (S : ℕ) (rows : List SkeletonRow)
    (hstart : ∀ r ∈ rows, r.startIdx < S)
    (hkeys : ∀ r ∈ rows, ∀ x ∈ r.trans, x.1 < S ∧ x.1 ≠ r.startIdx) (i : ℕ) :
    ∑ j ∈ Finset.range (S + 1), qMatrix p S rows i j = 0 := by
  cases hfind0 : rows.find? (fun x => x.startIdx = i) with
  | none => simp [qMatrix, hfind0]
  | some r =>
    have hri : r.startIdx = i := by
      have := List.find?_some hfind0
      simpa using this
    have hrmem : r ∈ rows := List.mem_of_find?_eq_some hfind0
    subst hri
    simp only [qMatrix, hfind0]
    have hS : r.startIdx < S := hstart r hrmem
    have h1 : r.startIdx ∈ Finset.range (S + 1) := Finset.mem_range.mpr (by omega)
    rw [← Finset.add_sum_erase _ _ h1]
    have h2 : S ∈ (Finset.range (S + 1)).erase r.startIdx :=
      Finset.mem_erase.mpr ⟨by omega, Finset.mem_range.mpr (by omega)⟩
    rw [← Finset.add_sum_erase _ _ h2]
    have e1 : rowEntry p S r r.startIdx = -(hazardAway p r.startTts) := by
      rw [rowEntry, if_pos rfl]
    have e2 : rowEntry p S r S =
        hazardAway p r.startTts - ((r.trans.map fun x => hazard p x.2).sum) := by
      rw [rowEntry, if_neg (by omega), if_pos rfl]
    have e3 : (∑ j ∈ ((Finset.range (S + 1)).erase r.startIdx).erase S,
        rowEntry p S r j) = (r.trans.map fun x => hazard p x.2).sum := by
      rw [Finset.sum_congr rfl (fun j hj => ?_)]
      · exact fiber_sum_eq p fun x hx => by
          obtain ⟨hx1, hx2⟩ := hkeys r hrmem x hx
          exact Finset.mem_erase.mpr ⟨by omega,
            Finset.mem_erase.mpr ⟨hx2, Finset.mem_range.mpr (by omega)⟩⟩
      · obtain ⟨hjS, hjrest⟩ := Finset.mem_erase.mp hj
        obtain ⟨hjstart, _⟩ := Finset.mem_erase.mp hjrest
        rw [rowEntry, if_neg hjstart, if_neg hjS]
    rw [e1, e2, e3]
    ring

lemma qMatrix_offdiag_nonneg (p : ModelParams) (S : ℕ) (rows : List SkeletonRow)
    (hlam : ∀ x ∈ p.targetLams, 0 ≤ x)
    (hpL0 : 0 ≤ p.trimLongProbLeft) (hpL1 : p.trimLongProbLeft ≤ 1)
    (hpR0 : 0 ≤ p.trimLongProbRight) (hpR1 : p.trimLongProbRight ≤ 1)
    (hN : 1 ≤ p.numTargets)
    (hnd : (rows.map SkeletonRow.startIdx).Nodup) {r : SkeletonRow}
    (hr : r ∈ rows) (hS : r.startIdx < S)
    (hevnd : (r.trans.map Prod.snd).Nodup)
    (hposs : ∀ x ∈ r.trans,
      x.2 ∈ possibleTargetTracts (activeTargs p.numTargets r.startTts))
    (hwf : wfTts p.numTargets r.startTts)
    (j : ℕ) (hjS : j ≤ S) (hjne : j ≠ r.startIdx) :
    0 ≤ qMatrix p S rows r.startIdx j := by
  have hnn : ∀ tt, 0 ≤ hazard p tt :=
    hazard_nonneg p hlam hpL0 hpL1 hpR0 hpR1
  simp only [qMatrix, find?_eq_of_nodup hnd hr, rowEntry]
  rw [if_neg (by omega)]
  by_cases hj : j = S
  · rw [if_pos hj]
    have hsum : ((r.trans.map Prod.snd).map fun tt => hazard p tt).sum =
        (r.trans.map fun x => hazard p x.2).sum := by
      rw [List.map_map]
      rfl
    have hle : ((r.trans.map fun x => hazard p x.2).sum) ≤
        hazardAway p r.startTts := by
      rw [hazardAway_eq_sum_possible p r.startTts hN hwf, ← hsum,
        ← List.sum_toFinset _ hevnd]
      refine Finset.sum_le_sum_of_subset_of_nonneg ?_ fun tt _ _ => hnn tt
      intro tt htt
      rw [List.mem_toFinset, List.mem_map] at htt
      obtain ⟨x, hx, rfl⟩ := htt
      exact hposs x hx
    linarith
  · rw [if_neg hj]
    refine List.sum_nonneg ?_
    intro x hx
    rw [List.mem_map] at hx
    obtain ⟨y, _, rfl⟩ := hx
    exact hnn y.2

/-! ## Rescaled versus raw Felsenstein recursion -/

lemma downProb_mul (e : EdgeData) (v : ℕ → ℚ) (c : ℚ) (j : ℕ) :
    downProb e (fun k => v k * c) j = downProb e v j * c := by
  unfold downProb
  rw [Finset.sum_mul]
  exact Finset.sum_congr rfl fun k _ => by ring

lemma reorderVec_mul (e : EdgeData) (w : ℕ → ℚ) (c : ℚ) (i : ℕ) :
    reorderVec e (fun k => w k * c) i = reorderVec e w i * c := by
  unfold reorderVec
  cases e.reorderPairs.find? (fun pr => pr.1 = i) with
  | none => rw [zero_mul]
  | some pr => rfl

mutual
theorem felsResc_mul_prod (t : FelsTree)
    (h : ∀ s ∈ (felsResc t).2, s ≠ 0) (j : ℕ) :
    (felsResc t).1 j * ((felsResc t).2.prod) = felsRaw t j := by
  cases t with
  | leaf S obs => simp [felsResc, felsRaw]
  | node S cs =>
    have hcs : ∀ s ∈ (felsRescForest cs).2, s ≠ 0 := by
      intro s hs
      refine h s ?_
      simp [felsResc, hs]
    have hsc : listMax ((List.range (S + 1)).map (felsRescForest cs).1) ≠ 0 := by
      refine h _ ?_
      simp [felsResc]
    have hrec := felsRescForest_mul_prod cs hcs j
    simp only [felsResc, felsRaw, List.prod_append, List.prod_cons, List.prod_nil]
    field_simp
    linear_combination (listMax ((List.range (S + 1)).map (felsRescForest cs).1)) * hrec
theorem felsRescForest_mul_prod (cs : FelsForest)
    (h : ∀ s ∈ (felsRescForest cs).2, s ≠ 0) (j : ℕ) :
    (felsRescForest cs).1 j * ((felsRescForest cs).2.prod) = felsRawForest cs j := by
  cases cs with
  | nil => simp [felsRescForest, felsRawForest]
  | cons e t rest =>
    have hchild : ∀ s ∈ (felsResc t).2, s ≠ 0 := by
      intro s hs
      refine h s ?_
      simp [felsRescForest, hs]
    have hrest : ∀ s ∈ (felsRescForest rest).2, s ≠ 0 := by
      intro s hs
      refine h s ?_
      simp [felsRescForest, hs]
    have hchildvec : (fun k => (felsResc t).1 k * (felsResc t).2.prod) = felsRaw t := by
      funext k
      exact felsResc_mul_prod t hchild k
    have hrestrec := felsRescForest_mul_prod rest hrest j
    simp only [felsRescForest, felsRawForest, List.prod_append]
    calc reorderVec e (downProb e (felsResc t).1) j * (felsRescForest rest).1 j *
          ((felsResc t).2.prod * (felsRescForest rest).2.prod)
        = (reorderVec e (downProb e (felsResc t).1) j * (felsResc t).2.prod) *
          ((felsRescForest rest).1 j * (felsRescForest rest).2.prod) := by ring
      _ = reorderVec e (downProb e (felsRaw t)) j * felsRawForest rest j := by
          rw [hrestrec, ← reorderVec_mul]
          congr 1
          refine congrArg (fun w => reorderVec e w j) ?_
          funext k
          rw [← downProb_mul, hchildvec]
end

theorem felsRootPre_mul_prod : ∀ (cs : FelsForest),
    (∀ s ∈ (felsRootPre cs).2, s ≠ 0) →
    (felsRootPre cs).1 * ((felsRootPre cs).2.prod) = felsRawRoot cs
  | .nil, _ => by simp [felsRootPre, felsRawRoot]
  | .cons e t rest, h => by
    have hchild : ∀ s ∈ (felsResc t).2, s ≠ 0 := fun s hs =>
      h s (by simp [felsRootPre, hs])
    have hrest : ∀ s ∈ (felsRootPre rest).2, s ≠ 0 := fun s hs =>
      h s (by simp [felsRootPre, hs])
    have hchildvec : (fun k => (felsResc t).1 k * (felsResc t).2.prod) =
        felsRaw t := funext fun k => felsResc_mul_prod t hchild k
    have hrec := felsRootPre_mul_prod rest hrest
    simp only [felsRootPre, felsRawRoot, List.prod_append]
    calc downProb e (felsResc t).1 e.emptyIdx * (felsRootPre rest).1 *
          ((felsResc t).2.prod * (felsRootPre rest).2.prod)
        = (downProb e (felsResc t).1 e.emptyIdx * (felsResc t).2.prod) *
          ((felsRootPre rest).1 * (felsRootPre rest).2.prod) := by ring
      _ = downProb e (felsRaw t) e.emptyIdx * felsRawRoot rest := by
          rw [hrec, ← downProb_mul, hchildvec]

lemma list_prod_ne_zero (l : List ℚ) (h : ∀ x ∈ l, x ≠ 0) : l.prod ≠ 0 := by
  induction l with
  | nil => simp
  | cons x t ih =>
    rw [List.prod_cons]
    exact mul_ne_zero (h x (by simp)) (ih fun y hy => h y (by simp [hy]))

lemma log_list_prod (l : List ℚ) (h : ∀ x ∈ l, x ≠ 0) :
    Real.log ((l.prod : ℚ) : ℝ) = (l.map fun s : ℚ => Real.log (s : ℝ)).sum := by
  induction l with
  | nil => simp
  | cons x t ih =>
    simp only [List.prod_cons, List.map_cons, List.sum_cons]
    have hx : ((x : ℚ) : ℝ) ≠ 0 := by
      exact_mod_cast h x (by simp)
    have ht : ((t.prod : ℚ) : ℝ) ≠ 0 := by
      exact_mod_cast list_prod_ne_zero t fun y hy => h y (by simp [hy])
    rw [Rat.cast_mul, Real.log_mul hx ht, ih fun y hy => h y (by simp [hy])]

lemma listMax_singleton (x : ℚ) : listMax [x] = x := rfl

/-! ## Claims -/

/-- C1, counterexample: with target rates (1/2, 1/3), both trim-long
probabilities 0, and the spec's `double_cut_weight` taken as w = 0, the
model's hazard of the inter-target event cutting targets 0 and 1 is 1/6
while the claimed formula gives 0.  The hazard of `_create_hazard_nodes`
carries no double_cut_weight factor at all (the source model has no such
parameter). -/
theorem C1_counterexample :
    hazard ⟨[1/2, 1/3], 0, 0⟩ ⟨0, 0, 1, 1⟩ = 1/6 ∧
    hazardSpecFormula ⟨[1/2, 1/3], 0, 0⟩ 0 ⟨0, 0, 1, 1⟩ = 0 ∧
    (1/6 : ℚ) ≠ 0 := by
  refine ⟨?_, ?_, by norm_num⟩ <;>
    norm_num [hazard, hazardSpecFormula, ModelParams.lam,
      TargetTract.isLeftLong, TargetTract.isRightLong]

/-- C1, amended: the hazard computed by `_create_hazard_nodes` equals the
spec's formula with the double_cut_weight factor fixed to 1, i.e.
`h(e) = λ[a] · (λ[b] if b ≠ a else 1) · (pL if left-long else 1-pL) ·
(pR if right-long else 1-pR)`, with no weight on inter-target events. -/
theorem C1_hazard_eq_spec_with_unit_weight (p : ModelParams)
    (tt : TargetTract) : hazard p tt = hazardSpecFormula p 1 tt := by
  unfold hazard hazardSpecFormula
  by_cases h : tt.minTarget = tt.maxTarget
  · simp [h]
  · have h' : tt.maxTarget ≠ tt.minTarget := fun e => h e.symm
    simp [h, h']

/-- C3: for every well-formed target tract tuple, the hazard away computed
by the masked cumulative formula of `_create_hazard_away_nodes`
(per-target left/right trimmable masks in {0,1,2}, focal hazards plus
cumulative-left times right inter-target hazards) equals the sum of the
individual event hazards over exactly the one-step events enumerated by
`get_possible_target_tracts` on the still-active targets of the tuple. -/
theorem C3_hazardAway_eq_possible_sum (p : ModelParams)
    (tts : List TargetTract) (hN : 1 ≤ p.numTargets)
    (hwf : wfTts p.numTargets tts) :
    hazardAway p tts =
      ∑ tt ∈ possibleTargetTracts (activeTargs p.numTargets tts),
        hazard p tt :=
  hazardAway_eq_sum_possible p tts hN hwf

/-- C3, witness: the equality instantiated on a three-target model with one
focal cut already present. -/
theorem C3_witness :
    (1 ≤ (⟨[1, 2, 3], 1/5, 1/7⟩ : ModelParams).numTargets) ∧
    wfTts (⟨[1, 2, 3], 1/5, 1/7⟩ : ModelParams).numTargets [⟨1, 1, 1, 1⟩] ∧
    hazardAway ⟨[1, 2, 3], 1/5, 1/7⟩ [⟨1, 1, 1, 1⟩] =
      ∑ tt ∈ possibleTargetTracts (activeTargs
        (⟨[1, 2, 3], 1/5, 1/7⟩ : ModelParams).numTargets [⟨1, 1, 1, 1⟩]),
        hazard ⟨[1, 2, 3], 1/5, 1/7⟩ tt :=
  ⟨by decide, by decide,
    C3_hazardAway_eq_possible_sum _ _ (by decide) (by decide)⟩

/-- C2: for an assembled rate matrix of `_create_transition_matrix` over a
well-formed skeleton (distinct row indices below the unlikely index `S`,
end indices distinct, below `S` and off the diagonal, end events distinct
and among the one-step events of the start state), with nonnegative rates
and trim-long probabilities in [0,1]: each row holds `-hazard_away` on the
diagonal, the event hazard at each listed end index, and
`hazard_away - Σ hazards` in the unlikely column `S`; row `S` is all
zeros; every row sums to exactly 0; and all off-diagonal entries,
including the mass into the unlikely sink, are nonnegative. -/
theorem C2_qMatrix_assembly (p : ModelParams) (S : ℕ)
    (rows : List SkeletonRow)
    (hlam : ∀ x ∈ p.targetLams, 0 ≤ x)
    (hpL0 : 0 ≤ p.trimLongProbLeft) (hpL1 : p.trimLongProbLeft ≤ 1)
    (hpR0 : 0 ≤ p.trimLongProbRight) (hpR1 : p.trimLongProbRight ≤ 1)
    (hN : 1 ≤ p.numTargets)
    (hstart : ∀ r ∈ rows, r.startIdx < S)
    (hnd : (rows.map SkeletonRow.startIdx).Nodup)
    (hkeys : ∀ r ∈ rows, ∀ x ∈ r.trans, x.1 < S ∧ x.1 ≠ r.startIdx)
    (hknd : ∀ r ∈ rows, (r.trans.map Prod.fst).Nodup)
    (hevnd : ∀ r ∈ rows, (r.trans.map Prod.snd).Nodup)
    (hposs : ∀ r ∈ rows, ∀ x ∈ r.trans,
      x.2 ∈ possibleTargetTracts (activeTargs p.numTargets r.startTts))
    (hwf : ∀ r ∈ rows, wfTts p.numTargets r.startTts) :
    (∀ r ∈ rows,
      qMatrix p S rows r.startIdx r.startIdx = -(hazardAway p r.startTts)) ∧
    (∀ r ∈ rows, ∀ x ∈ r.trans,
      qMatrix p S rows r.startIdx x.1 = hazard p x.2) ∧
    (∀ r ∈ rows, qMatrix p S rows r.startIdx S =
      hazardAway p r.startTts - ((r.trans.map fun x => hazard p x.2).sum)) ∧
    (∀ j, qMatrix p S rows S j = 0) ∧
    (∀ i, ∑ j ∈ Finset.range (S + 1), qMatrix p S rows i j = 0) ∧
    (∀ r ∈ rows, ∀ j, j ≤ S → j ≠ r.startIdx →
      0 ≤ qMatrix p S rows r.startIdx j) := by
  refine ⟨fun r hr => qMatrix_diag p S rows hnd hr,
    fun r hr x hx => qMatrix_entry p S rows hnd hr (hknd r hr) hx
      (hkeys r hr x hx).1 (hkeys r hr x hx).2,
    fun r hr => qMatrix_unlikely p S rows hnd hr (hstart r hr),
    fun j => qMatrix_absorbing p S rows hstart j,
    fun i => qMatrix_row_sum p S rows hstart hkeys i,
    fun r hr j hjS hjne => qMatrix_offdiag_nonneg p S rows hlam hpL0 hpL1
      hpR0 hpR1 hN hnd hr (hstart r hr) (hevnd r hr) (hposs r hr)
      (hwf r hr) j hjS hjne⟩

/-- C2, witness: the assembly on a two-target model with one likely state
(the unedited tuple) and no listed transitions. -/
theorem C2_witness :
    ((∀ r ∈ [(⟨0, [], []⟩ : SkeletonRow)], r.startIdx < 1) ∧
      wfTts (⟨[1, 1], 0, 0⟩ : ModelParams).numTargets [] ∧
      (∀ x ∈ ([1, 1] : List ℚ), 0 ≤ x)) ∧
    ((∀ r ∈ [(⟨0, [], []⟩ : SkeletonRow)],
      qMatrix ⟨[1, 1], 0, 0⟩ 1 [⟨0, [], []⟩] r.startIdx r.startIdx =
        -(hazardAway ⟨[1, 1], 0, 0⟩ r.startTts)) ∧
    (∀ r ∈ [(⟨0, [], []⟩ : SkeletonRow)], ∀ x ∈ r.trans,
      qMatrix ⟨[1, 1], 0, 0⟩ 1 [⟨0, [], []⟩] r.startIdx x.1 =
        hazard ⟨[1, 1], 0, 0⟩ x.2) ∧
    (∀ r ∈ [(⟨0, [], []⟩ : SkeletonRow)],
      qMatrix ⟨[1, 1], 0, 0⟩ 1 [⟨0, [], []⟩] r.startIdx 1 =
        hazardAway ⟨[1, 1], 0, 0⟩ r.startTts -
          ((r.trans.map fun x => hazard ⟨[1, 1], 0, 0⟩ x.2).sum)) ∧
    (∀ j, qMatrix ⟨[1, 1], 0, 0⟩ 1 [⟨0, [], []⟩] 1 j = 0) ∧
    (∀ i, ∑ j ∈ Finset.range 2,
      qMatrix ⟨[1, 1], 0, 0⟩ 1 [⟨0, [], []⟩] i j = 0) ∧
    (∀ r ∈ [(⟨0, [], []⟩ : SkeletonRow)], ∀ j, j ≤ 1 → j ≠ r.startIdx →
      0 ≤ qMatrix ⟨[1, 1], 0, 0⟩ 1 [⟨0, [], []⟩] r.startIdx j)) :=
  ⟨⟨by decide, by decide, by decide⟩,
    C2_qMatrix_assembly ⟨[1, 1], 0, 0⟩ 1 [⟨0, [], []⟩]
      (by decide) (by decide) (by decide) (by decide) (by decide) (by decide)
      (by decide) (by decide) (by decide) (by decide) (by decide)
      (by decide) (by decide)⟩

/-- C6, counterexample: on the unedited two-target barcode both targets are
active, yet the long-left event at target 1 (deactivating target 0, i.e.
`TargetTract(0,1,1,1)`) is enumerated by `get_possible_target_tracts`
while target 1's left neighbour is *not* deactivated — contradicting the
claim that a long-left trim is admissible only when the left neighbour is
deactivated. -/
theorem C6_counterexample :
    activeTargs 2 [] = [0, 1] ∧
    (⟨0, 1, 1, 1⟩ : TargetTract) ∈ possibleTargetTracts (activeTargs 2 []) ∧
    (⟨0, 1, 1, 1⟩ : TargetTract).isLeftLong = true ∧
    deactB [] 0 = false := by decide

/-- C6, amended: in the one-step enumeration a long-left trim at target `a`
is admissible only when `a`'s left neighbour is still **active** (it is
the target the long trim deactivates), and symmetrically a long-right trim
at `b` requires `b`'s right neighbour active; in the hazard masks, mask
value 2 (long trim allowed) at position `i` likewise requires the relevant
neighbour not deactivated. -/
theorem C6_long_trim_requires_active_neighbour (N : ℕ)
    (tts : List TargetTract) (tt : TargetTract)
    (hmem : tt ∈ possibleTargetTracts (activeTargs N tts)) :
    (tt.isLeftLong = true →
      1 ≤ tt.minTarget ∧ tt.minDeact = tt.minTarget - 1 ∧
      (tt.minTarget - 1) ∈ activeTargs N tts) ∧
    (tt.isRightLong = true →
      tt.maxDeact = tt.maxTarget + 1 ∧
      (tt.maxTarget + 1) ∈ activeTargs N tts) ∧
    (∀ i, leftSpecM (deactB tts) i = 2 →
      i ≠ 0 ∧ deactB tts (i - 1) = false) ∧
    (∀ i, rightSpecM (deactB tts) N i = 2 →
      deactB tts (i + 1) = false) := by
  have hp := (mem_possible_iff (activeTargs_sorted N tts) tt).mp hmem
  obtain ⟨h1, h2, h3, h4, h5⟩ := hp
  refine ⟨?_, ?_, ?_, ?_⟩
  · intro hll
    have hlt : tt.minDeact < tt.minTarget := by
      simpa [TargetTract.isLeftLong] using hll
    rcases h4 with h | ⟨a, b, c⟩
    · omega
    · exact ⟨a, b, c⟩
  · intro hrl
    have hlt : tt.maxTarget < tt.maxDeact := by
      simpa [TargetTract.isRightLong] using hrl
    rcases h5 with h | ⟨a, b⟩
    · omega
    · exact ⟨a, b⟩
  · intro i h2'
    unfold leftSpecM at h2'
    by_cases hd : deactB tts i = true
    · rw [if_pos hd] at h2'
      exact absurd h2' (by norm_num)
    · rw [if_neg hd] at h2'
      by_cases hc : i = 0 ∨ deactB tts (i - 1) = true
      · rw [if_pos hc] at h2'
        exact absurd h2' (by norm_num)
      · push_neg at hc
        exact ⟨hc.1, by simpa using hc.2⟩
  · intro i h2'
    unfold rightSpecM at h2'
    by_cases hd : deactB tts i = true
    · rw [if_pos hd] at h2'
      exact absurd h2' (by norm_num)
    · rw [if_neg hd] at h2'
      by_cases hc : i = N - 1 ∨ deactB tts (i + 1) = true
      · rw [if_pos hc] at h2'
        exact absurd h2' (by norm_num)
      · push_neg at hc
        simpa using hc.2

/-- C6, witness: the amended statement at the long-left event of the
counterexample input. -/
theorem C6_witness :
    ((⟨0, 1, 1, 1⟩ : TargetTract) ∈ possibleTargetTracts (activeTargs 2 [])) ∧
    (((⟨0, 1, 1, 1⟩ : TargetTract).isLeftLong = true →
      1 ≤ (⟨0, 1, 1, 1⟩ : TargetTract).minTarget ∧
      (⟨0, 1, 1, 1⟩ : TargetTract).minDeact =
        (⟨0, 1, 1, 1⟩ : TargetTract).minTarget - 1 ∧
      ((⟨0, 1, 1, 1⟩ : TargetTract).minTarget - 1) ∈ activeTargs 2 []) ∧
    ((⟨0, 1, 1, 1⟩ : TargetTract).isRightLong = true →
      (⟨0, 1, 1, 1⟩ : TargetTract).maxDeact =
        (⟨0, 1, 1, 1⟩ : TargetTract).maxTarget + 1 ∧
      ((⟨0, 1, 1, 1⟩ : TargetTract).maxTarget + 1) ∈ activeTargs 2 []) ∧
    (∀ i, leftSpecM (deactB []) i = 2 →
      i ≠ 0 ∧ deactB [] (i - 1) = false) ∧
    (∀ i, rightSpecM (deactB []) 2 i = 2 →
      deactB [] (i + 1) = false)) :=
  ⟨by decide, C6_long_trim_requires_active_neighbour 2 [] ⟨0, 1, 1, 1⟩ (by decide)⟩

/-- C8: for positive target rates and trim-long probabilities in [0,1),
deactivating strictly more targets (the effect of adding one more
TargetTract event to the tuple) strictly decreases the hazard-away
value. -/
theorem C8_hazardAway_strict_anti (p : ModelParams)
    (tts tts' : List TargetTract) (hN : 1 ≤ p.numTargets)
    (hwf : wfTts p.numTargets tts) (hwf' : wfTts p.numTargets tts')
    (hlam : ∀ x ∈ p.targetLams, 0 < x)
    (hpL0 : 0 ≤ p.trimLongProbLeft) (hpL1 : p.trimLongProbLeft < 1)
    (hpR0 : 0 ≤ p.trimLongProbRight) (hpR1 : p.trimLongProbRight < 1)
    (hsub : (activeTargs p.numTargets tts').toFinset ⊂
      (activeTargs p.numTargets tts).toFinset) :
    hazardAway p tts' < hazardAway p tts := by
  rw [hazardAway_eq_sum_possible p tts hN hwf,
    hazardAway_eq_sum_possible p tts' hN hwf']
  have hsub' : ∀ x, x ∈ activeTargs p.numTargets tts' →
      x ∈ activeTargs p.numTargets tts := fun x hx =>
    List.mem_toFinset.mp (hsub.1 (List.mem_toFinset.mpr hx))
  have hmono : possibleTargetTracts (activeTargs p.numTargets tts') ⊆
      possibleTargetTracts (activeTargs p.numTargets tts) := by
    intro tt htt
    rw [mem_possible_iff (activeTargs_sorted _ _)] at htt ⊢
    obtain ⟨h1, h2, h3, h4, h5⟩ := htt
    refine ⟨hsub' _ h1, hsub' _ h2, h3, ?_, ?_⟩
    · rcases h4 with h | ⟨a, b, c⟩
      · exact Or.inl h
      · exact Or.inr ⟨a, b, hsub' _ c⟩
    · rcases h5 with h | ⟨a, b⟩
      · exact Or.inl h
      · exact Or.inr ⟨a, hsub' _ b⟩
  obtain ⟨t, htA, htA'⟩ := Finset.exists_of_ssubset hsub
  have ht : t ∈ activeTargs p.numTargets tts := List.mem_toFinset.mp htA
  have htmem : (⟨t, t, t, t⟩ : TargetTract) ∈
      possibleTargetTracts (activeTargs p.numTargets tts) := by
    rw [mem_possible_iff (activeTargs_sorted _ _)]
    exact ⟨ht, ht, le_rfl, Or.inl rfl, Or.inl rfl⟩
  have htnot : (⟨t, t, t, t⟩ : TargetTract) ∉
      possibleTargetTracts (activeTargs p.numTargets tts') := by
    rw [mem_possible_iff (activeTargs_sorted _ _)]
    intro hc
    exact htA' (List.mem_toFinset.mpr hc.1)
  have hpos : 0 < hazard p ⟨t, t, t, t⟩ := by
    have htN : t < p.numTargets := (mem_activeTargs.mp ht).1
    have hl : 0 < p.lam t := hlam _ (getD_mem_q _ htN)
    have hval : hazard p ⟨t, t, t, t⟩ =
        p.lam t * (1 - p.trimLongProbLeft) * (1 - p.trimLongProbRight) := by
      simp [hazard, TargetTract.isLeftLong, TargetTract.isRightLong]
    rw [hval]
    have hL : (0 : ℚ) < 1 - p.trimLongProbLeft := by linarith
    have hR : (0 : ℚ) < 1 - p.trimLongProbRight := by linarith
    positivity
  refine Finset.sum_lt_sum_of_subset hmono htmem htnot hpos ?_
  intro j _ _
  exact hazard_nonneg p (fun x hx => le_of_lt (hlam x hx)) hpL0
    (le_of_lt hpL1) hpR0 (le_of_lt hpR1) j

/-- C8, witness: cutting target 0 of an unedited two-target barcode
strictly lowers the hazard away. -/
theorem C8_witness :
    wfTts (⟨[1, 1], 0, 0⟩ : ModelParams).numTargets [⟨0, 0, 0, 0⟩] ∧
    (activeTargs (⟨[1, 1], 0, 0⟩ : ModelParams).numTargets
        [⟨0, 0, 0, 0⟩]).toFinset ⊂
      (activeTargs (⟨[1, 1], 0, 0⟩ : ModelParams).numTargets []).toFinset ∧
    hazardAway ⟨[1, 1], 0, 0⟩ [⟨0, 0, 0, 0⟩] < hazardAway ⟨[1, 1], 0, 0⟩ [] :=
  ⟨by decide, by decide,
    C8_hazardAway_strict_anti ⟨[1, 1], 0, 0⟩ [] [⟨0, 0, 0, 0⟩]
      (by decide) (by decide) (by decide) (by decide) (by decide)
      (by decide) (by decide) (by decide) (by decide)⟩

/-- C4, counterexample: when every entry of a partial-likelihood vector is
zero (here [0, 0]), the rescaling step of `get_likelihood` raises
`ValueError("Why is everything zero?")`; no log-likelihood value — in
particular not -inf — is returned to the optimizer. -/
theorem C4_counterexample :
    felsScalerStep [0, 0] = Except.error "Why is everything zero?" ∧
    (felsScalerStep [0, 0]).toOption = none := by
  constructor <;>
    norm_num [felsScalerStep, listMax, List.foldl, Except.toOption]

/-- C4, amended: whenever the scaler max(L) is zero, `get_likelihood`
aborts by raising ValueError("Why is everything zero?") rather than
surfacing -inf to the optimizer. -/
theorem C4_zero_scaler_raises (L : List ℚ) (h : listMax L = 0) :
    felsScalerStep L = Except.error "Why is everything zero?" := by
  simp [felsScalerStep, h]

/-- C4, witness: the all-zero two-entry vector. -/
theorem C4_witness :
    listMax [0, 0] = 0 ∧
    felsScalerStep [0, 0] = Except.error "Why is everything zero?" :=
  ⟨by norm_num [listMax, List.foldl],
    C4_zero_scaler_raises [0, 0] (by norm_num [listMax, List.foldl])⟩

/-- C5: for the same topology, per-edge matrices P and T, reorder data and
leaf observations, the rescaled Felsenstein computation of
`get_likelihood` — dividing each internal node's partial-likelihood vector
by its maximum entry, accumulating the logs of the scalers, and returning
log of the rescaled root value plus the accumulated logs — yields the same
log-likelihood as the computation with no per-node rescaling (the log of
the raw root entry), on every input on which no scaler is zero. -/
theorem C5_rescaled_eq_raw_loglik (cs : FelsForest)
    (h : ∀ s ∈ (felsLogLikData cs).2, s ≠ 0) :
    Real.log (((felsLogLikData cs).1 : ℚ) : ℝ) +
      (((felsLogLikData cs).2).map fun s : ℚ => Real.log ((s : ℚ) : ℝ)).sum =
      Real.log ((felsRawRoot cs : ℚ) : ℝ) := by
  have hpre : ∀ s ∈ (felsRootPre cs).2, s ≠ 0 := by
    intro s hs
    refine h s ?_
    simp [felsLogLikData, hs]
  have hv : (felsRootPre cs).1 ≠ 0 := by
    have hmem : listMax [(felsRootPre cs).1] ∈ (felsLogLikData cs).2 := by
      simp [felsLogLikData]
    have := h _ hmem
    rwa [listMax_singleton] at this
  have hmul := felsRootPre_mul_prod cs hpre
  have hfst : (felsLogLikData cs).1 = 1 := by
    simp [felsLogLikData, listMax_singleton, div_self hv]
  have hsnd : (felsLogLikData cs).2 =
      (felsRootPre cs).2 ++ [(felsRootPre cs).1] := by
    simp [felsLogLikData, listMax_singleton]
  rw [hfst, hsnd, List.map_append, List.sum_append, ← hmul]
  simp only [List.map_cons, List.map_nil, List.sum_cons, List.sum_nil]
  have hprodne : (((felsRootPre cs).2.prod : ℚ) : ℝ) ≠ 0 := by
    exact_mod_cast list_prod_ne_zero _ hpre
  have hvc : (((felsRootPre cs).1 : ℚ) : ℝ) ≠ 0 := by exact_mod_cast hv
  rw [Rat.cast_mul, Real.log_mul hvc hprodne, log_list_prod _ hpre]
  simp
  ring

/-- C5, witness: a root with a single leaf child, all matrix entries 1 and
one likely state; the only scaler is 1. -/
theorem C5_witness :
    (∀ s ∈ (felsLogLikData (FelsForest.cons
        ⟨0, fun _ _ => 1, fun _ _ => 1, [], 0⟩
        (FelsTree.leaf 0 0) FelsForest.nil)).2, s ≠ 0) ∧
    (Real.log (((felsLogLikData (FelsForest.cons
        ⟨0, fun _ _ => 1, fun _ _ => 1, [], 0⟩
        (FelsTree.leaf 0 0) FelsForest.nil)).1 : ℚ) : ℝ) +
      (((felsLogLikData (FelsForest.cons
        ⟨0, fun _ _ => 1, fun _ _ => 1, [], 0⟩
        (FelsTree.leaf 0 0) FelsForest.nil)).2).map
          fun s : ℚ => Real.log ((s : ℚ) : ℝ)).sum =
      Real.log ((felsRawRoot (FelsForest.cons
        ⟨0, fun _ _ => 1, fun _ _ => 1, [], 0⟩
        (FelsTree.leaf 0 0) FelsForest.nil) : ℚ) : ℝ)) := by
  have hEq : felsLogLikData (FelsForest.cons
      ⟨0, fun _ _ => 1, fun _ _ => 1, [], 0⟩
      (FelsTree.leaf 0 0) FelsForest.nil) = (1, [1]) := by
    norm_num [felsLogLikData, felsRootPre, felsResc, downProb, listMax,
      List.foldl, Finset.sum_range_succ]
  have hw : ∀ s ∈ (felsLogLikData (FelsForest.cons
      ⟨0, fun _ _ => 1, fun _ _ => 1, [], 0⟩
      (FelsTree.leaf 0 0) FelsForest.nil)).2, s ≠ 0 := by
    rw [hEq]
    norm_num
  exact ⟨hw, C5_rescaled_eq_raw_loglik _ hw⟩

/-- C7, counterexample: for the two-target barcode with λ = (1/2, 1/2) and
both trim-long probabilities 0, the hazard away from the unedited state
computed by the source is 5/4, not the λ0 + λ1 + w·λ0·λ1 = 1 the claim
gives at w = 0 (the model has no double_cut_weight), and the Scenario-A
log-likelihood -hazard_away · 1 is -5/4, not -1.0. -/
theorem C7_counterexample :
    hazardAway ⟨[1/2, 1/2], 0, 0⟩ [] = 5/4 ∧
    (5/4 : ℚ) ≠ 1/2 + 1/2 + 0 * (1/2 * (1/2)) ∧
    Real.log (Real.exp (-(5/4 : ℝ) * 1)) = -(5/4) ∧
    (-(5/4) : ℝ) ≠ -1 := by
  refine ⟨?_, by norm_num, ?_, by norm_num⟩
  · norm_num [hazardAway, hazardList, hazardMasks, cumsum, maskFactor,
      ModelParams.numTargets, ModelParams.lam, List.range_succ]
  · rw [Real.log_exp]
    norm_num

/-- C7, amended: for a two-target barcode the hazard away from the empty
state is λ0·(1-pL) + λ1·(1-pR) + λ0·(1-pL)·λ1·(1-pR) — the source has no
double_cut_weight factor; with λ = (1/2, 1/2) and pL = pR = 0 the
assembled rate matrix of the one-likely-state skeleton has
Q[empty, empty] = -5/4, and the Scenario-A log-likelihood
log(exp(Q[empty,empty] · 1)) equals exactly -5/4. -/
theorem C7_scenarioA (l0 l1 pL pR : ℚ) :
    hazardAway ⟨[l0, l1], pL, pR⟩ [] =
      l0 * (1 - pL) + l1 * (1 - pR) + l0 * (1 - pL) * (l1 * (1 - pR)) ∧
    qMatrix ⟨[1/2, 1/2], 0, 0⟩ 1 [⟨0, [], []⟩] 0 0 = -(5/4) ∧
    Real.log (Real.exp
      ((qMatrix ⟨[1/2, 1/2], 0, 0⟩ 1 [⟨0, [], []⟩] 0 0 : ℚ) * 1 : ℝ)) =
      -(5/4) := by
  have hq : qMatrix ⟨[1/2, 1/2], 0, 0⟩ 1 [⟨0, [], []⟩] 0 0 = -(5/4) := by
    have hrow : ([(⟨0, [], []⟩ : SkeletonRow)].find?
        (fun x => x.startIdx = 0)) = some ⟨0, [], []⟩ := by
      simp [List.find?]
    simp only [qMatrix, hrow, rowEntry, if_pos rfl]
    norm_num [hazardAway, hazardList, hazardMasks, cumsum, maskFactor,
      ModelParams.numTargets, ModelParams.lam, List.range_succ]
  refine ⟨?_, hq, ?_⟩
  · norm_num [hazardAway, hazardList, hazardMasks, cumsum, maskFactor,
      ModelParams.numTargets, ModelParams.lam, List.range_succ]
  · rw [hq, Real.log_exp]
    norm_num

/-- C9: the conditional deletion probability of `_create_del_probs`, with
the long flags encoded as 0/1 floats: whenever a long flag is set the
result is exactly left_prob · right_prob with no trim_zero_prob mixture;
the zero-inflated branch — trim_zero_prob + (1 - trim_zero_prob) ·
left_prob · right_prob at deletion length zero — applies only when both
flags are short. -/
theorem C9_del_prob_mixture (meta : BarcodeMeta) (q : ℚ) (minT maxT : ℕ)
    (llF rlF startPos delEnd : ℚ)
    (hll : llF = 0 ∨ llF = 1) (hrl : rlF = 0 ∨ rlF = 1) :
    ((llF = 1 ∨ rlF = 1) →
      delProb meta q minT maxT llF rlF startPos delEnd =
        leftDelProb meta minT llF startPos *
          rightDelProb meta maxT rlF delEnd) ∧
    (llF = 0 ∧ rlF = 0 →
      delProb meta q minT maxT llF rlF startPos delEnd =
        if delEnd - startPos = 0 then
          q + (1 - q) * (leftDelProb meta minT llF startPos *
            rightDelProb meta maxT rlF delEnd)
        else (1 - q) * (leftDelProb meta minT llF startPos *
          rightDelProb meta maxT rlF delEnd)) := by
  constructor
  · intro hcase
    have hne : ¬ (llF + rlF = 0) := by
      rcases hll with rfl | rfl <;> rcases hrl with rfl | rfl <;>
        norm_num at hcase ⊢
    simp only [delProb, ifelseQ, equalFloat, if_neg hne]
    ring
  · rintro ⟨rfl, rfl⟩
    simp only [delProb, ifelseQ, equalFloat]
    rw [if_pos (by norm_num)]
    by_cases hz : delEnd - startPos = 0
    · rw [if_pos hz, if_pos hz]
      ring
    · rw [if_neg hz, if_neg hz]
      ring

/-- C9, witness: a long-left short-right singleton on a one-target
barcode. -/
theorem C9_witness :
    ((1 : ℚ) = 0 ∨ (1 : ℚ) = 1) ∧
    (((1 : ℚ) = 1 ∨ (0 : ℚ) = 1) →
      delProb ⟨[3], [1], [1], [5], [5]⟩ (1/2) 0 0 1 0 1 4 =
        leftDelProb ⟨[3], [1], [1], [5], [5]⟩ 0 1 1 *
          rightDelProb ⟨[3], [1], [1], [5], [5]⟩ 0 0 4) :=
  ⟨Or.inr rfl,
    (C9_del_prob_mixture ⟨[3], [1], [1], [5], [5]⟩ (1/2) 0 0 1 0 1 4
      (Or.inr rfl) (Or.inl rfl)).1⟩

/-- C10: in `_do_repair` the raw insertion length is always
`boost_len + insertion_distribution.rvs()`, in every regime (long-trim
and inter-target cuts included); whenever an insertion occurs its length
is that sum, hence at least `boost_len` (which the constructor asserts is
at least 1) — the boost unit is additive to the base draw, not a
replacement for it. -/
theorem C10_insertion_boost (boostLen : ℕ)
    (isIntertarg leftLong rightLong : Bool) (d : RepairDraws)
    (hb : 1 ≤ boostLen) :
    ((doRepairLens boostLen isIntertarg leftLong rightLong d).1 = 0 ∨
      (doRepairLens boostLen isIntertarg leftLong rightLong d).1 =
        boostLen + d.insertDraw) ∧
    ((doRepairLens boostLen isIntertarg leftLong rightLong d).1 ≠ 0 →
      boostLen ≤ (doRepairLens boostLen isIntertarg leftLong rightLong d).1) := by
  by_cases hreg : (leftLong || rightLong || isIntertarg) = true
  · simp only [doRepairLens, if_pos hreg]
    by_cases hins : d.doInsertion = true <;> simp [hins] <;> omega
  · simp only [doRepairLens, if_neg hreg]
    by_cases hins : d.boostChoice = 0 ∨ d.doInsertion = true <;>
      simp [hins] <;> omega

/-- C10, witness: an inter-target cut with the insertion drawn. -/
theorem C10_witness :
    1 ≤ 1 ∧
    (((doRepairLens 1 true false false ⟨true, false, false, 2, 0, 0, 0⟩).1 = 0 ∨
      (doRepairLens 1 true false false ⟨true, false, false, 2, 0, 0, 0⟩).1 =
        1 + (⟨true, false, false, 2, 0, 0, 0⟩ : RepairDraws).insertDraw) ∧
    ((doRepairLens 1 true false false ⟨true, false, false, 2, 0, 0, 0⟩).1 ≠ 0 →
      1 ≤ (doRepairLens 1 true false false ⟨true, false, false, 2, 0, 0, 0⟩).1)) :=
  ⟨le_rfl, C10_insertion_boost 1 true false false
    ⟨true, false, false, 2, 0, 0, 0⟩ (by decide)⟩
